import Mathlib

/-!
# LinkedList.cpp : a shallow embedding

The C++ class `LinkedList<T>` keeps a raw pointer `head_ptr_` to a chain of
heap-allocated `Node<T>` cells and a cached counter `item_count_`.

Embedding choices.

* The free store is a list of cells indexed by address; a cell is `none` once
  it has been released.  `new` hands out the next unused address.
* A pointer is an `Option Nat`; `nullptr` is `none`.
* `int` is `Int`; lists long enough to overflow the counter are not considered.
* Dereferencing `nullptr` or a released cell is undefined behaviour in C++; the
  embedding reports it as an error value, so every member function returns in
  `Except Err`.
* The object state (`head_ptr_`, `item_count_`) is bundled with the free store
  it lives in and passed explicitly.
-/

namespace LinkedListCpp

/-- Ways in which a member function can fail to return normally. -/
inductive Err where
  | nullDeref
  | invalidDeref
  | precondViolatedExcep
  | assertionFailed
  | outOfFuel
  deriving DecidableEq

/-- Modelled from the spec: the `Node<T>` collaborator (its header is not part
of the sources).  A storage cell holding one element and a successor pointer. -/
structure Node (T : Type) where
  item_ : T
  next_ : Option Nat
  deriving DecidableEq

/-- The free store: cell `a` is `some nd` while address `a` is live. -/
abbrev Mem (T : Type) := List (Option (Node T))

/-- The object: the store it lives in plus the two data members. -/
structure LinkedList (T : Type) where
  mem : Mem T
  head_ptr_ : Option Nat
  item_count_ : Int
  deriving DecidableEq

variable {T : Type}

/-- Contents of the cell at address `a`, if it is live. -/
def read (m : Mem T) (a : Nat) : Option (Node T) :=
  match m.get? a with
  | some (some nd) => some nd
  | _ => none

/-- Pointer dereference `*p`. -/
def deref (m : Mem T) (p : Option Nat) : Except Err (Node T) :=
  match p with
  | none => .error .nullDeref
  | some a =>
    match read m a with
    | some nd => .ok nd
    | none => .error .invalidDeref

/-- Modelled from the spec: `Node<T>::getNext`, called through pointer `p`. -/
def getNext (m : Mem T) (p : Option Nat) : Except Err (Option Nat) :=
  match deref m p with
  | .ok nd => .ok nd.next_
  | .error e => .error e

/-- Modelled from the spec: `Node<T>::getItem`, called through pointer `p`. -/
def getItem (m : Mem T) (p : Option Nat) : Except Err T :=
  match deref m p with
  | .ok nd => .ok nd.item_
  | .error e => .error e

/-- Modelled from the spec: `Node<T>::setNext`, called through pointer `p`. -/
def setNext (m : Mem T) (p : Option Nat) (nx : Option Nat) : Except Err (Mem T) :=
  match p with
  | none => .error .nullDeref
  | some a =>
    match read m a with
    | some nd => .ok (m.set a (some { nd with next_ := nx }))
    | none => .error .invalidDeref

/-- Modelled from the spec: `new Node<T>(v)`: a fresh cell holding `v` with no
successor; returns the pointer and the extended store. -/
def newNode (m : Mem T) (v : T) : Option Nat × Mem T :=
  (some m.length, m ++ [some { item_ := v, next_ := none }])

/-- The C++ expression `delete p`: releasing `nullptr` does nothing, releasing a
live cell frees it, releasing anything else is an error. -/
def deleteNode (m : Mem T) (p : Option Nat) : Except Err (Mem T) :=
  match p with
  | none => .ok m
  | some a =>
    match read m a with
    | some _ => .ok (m.set a none)
    | none => .error .invalidDeref

/-- Default constructor: `head_ptr_(nullptr), item_count_(0)`. -/
def LinkedList.default (m : Mem T) : LinkedList T :=
  { mem := m, head_ptr_ := none, item_count_ := 0 }

/-- Member `isEmpty`. -/
def isEmpty (l : LinkedList T) : Bool := l.item_count_ == 0

/-- Member `getLength`. -/
def getLength (l : LinkedList T) : Int := l.item_count_

/-- The `for` loop of `getNodeAt`: `n` iterations of `cur_ptr = cur_ptr->getNext()`. -/
def getNodeAtLoop (m : Mem T) : Nat → Option Nat → Except Err (Option Nat)
  | 0, cur_ptr => .ok cur_ptr
  | n + 1, cur_ptr =>
    match getNext m cur_ptr with
    | .ok nx => getNodeAtLoop m n nx
    | .error e => .error e

/-- Private member `getNodeAt`: start at `head_ptr_` and advance while
`skip < position`, that is `position.toNat` times. -/
def getNodeAt (l : LinkedList T) (position : Int) : Except Err (Option Nat) :=
  getNodeAtLoop l.mem position.toNat l.head_ptr_

/-- Member `insert`. -/
def insert (l : LinkedList T) (positions : Int) (new_entry : T) :
    Except Err (Bool × LinkedList T) :=
  if positions ≥ 0 ∧ positions ≤ l.item_count_ then
    let (new_node_ptr, m1) := newNode l.mem new_entry
    if positions = 0 then do
      let m2 ← setNext m1 new_node_ptr l.head_ptr_
      pure (true, { mem := m2, head_ptr_ := new_node_ptr, item_count_ := l.item_count_ + 1 })
    else do
      let prev_ptr ← getNodeAt { l with mem := m1 } (positions - 1)
      let nx ← getNext m1 prev_ptr
      let m2 ← setNext m1 new_node_ptr nx
      let m3 ← setNext m2 prev_ptr new_node_ptr
      pure (true, { mem := m3, head_ptr_ := l.head_ptr_, item_count_ := l.item_count_ + 1 })
  else
    pure (false, l)

/-- Member `remove`. -/
def remove (l : LinkedList T) (position : Int) : Except Err (Bool × LinkedList T) :=
  if position ≥ 0 ∧ position < l.item_count_ then
    if position = 0 then do
      let cur_ptr := l.head_ptr_
      let nx ← getNext l.mem l.head_ptr_
      let m1 ← setNext l.mem cur_ptr none
      let m2 ← deleteNode m1 cur_ptr
      pure (true, { mem := m2, head_ptr_ := nx, item_count_ := l.item_count_ - 1 })
    else do
      let prev_ptr ← getNodeAt l (position - 1)
      let cur_ptr ← getNext l.mem prev_ptr
      let nx ← getNext l.mem cur_ptr
      let m1 ← setNext l.mem prev_ptr nx
      let m2 ← setNext m1 cur_ptr none
      let m3 ← deleteNode m2 cur_ptr
      pure (true, { mem := m3, head_ptr_ := l.head_ptr_, item_count_ := l.item_count_ - 1 })
  else
    pure (false, l)

/-- Member `getEntry`.  It is a `const` member: it has no state to return. -/
def getEntry (l : LinkedList T) (position : Int) : Except Err T :=
  if position ≥ 0 ∧ position < l.item_count_ then do
    let nodePtr ← getNodeAt l position
    getItem l.mem nodePtr
  else
    .error .precondViolatedExcep

/-- Private member `invertRest`.  The recursion follows the chain, which need
not end, so the depth is bounded by `fuel`. -/
def invertRest : Nat → LinkedList T → Option Nat → Except Err (LinkedList T)
  | 0, _, _ => .error .outOfFuel
  | fuel + 1, l, current_first_ptr => do
    let nx ← getNext l.mem current_first_ptr
    if nx ≠ none then
      let l1 ← invertRest fuel l nx
      let nx1 ← getNext l1.mem current_first_ptr
      let m2 ← setNext l1.mem nx1 current_first_ptr
      let m3 ← setNext m2 current_first_ptr none
      pure { l1 with mem := m3 }
    else
      pure { l with head_ptr_ := current_first_ptr }

/-- Member `invert`. -/
def invert (fuel : Nat) (l : LinkedList T) : Except Err (LinkedList T) :=
  if l.item_count_ > 1 then invertRest fuel l l.head_ptr_ else pure l

/-- The three statements that follow the recursive call in `rotate`: move the
last node to the front. -/
def rotateStep (l : LinkedList T) : Except Err (LinkedList T) := do
  let last1 ← getNodeAt l (l.item_count_ - 1)
  let m1 ← setNext l.mem last1 l.head_ptr_
  let last2 ← getNodeAt { l with mem := m1 } (l.item_count_ - 1)
  let l2 : LinkedList T := { mem := m1, head_ptr_ := last2, item_count_ := l.item_count_ }
  let last3 ← getNodeAt l2 (l.item_count_ - 1)
  let m3 ← setNext m1 last3 none
  pure { l2 with mem := m3 }

/-- Member `rotate`. -/
def rotate (l : LinkedList T) (k : Int) : Except Err (LinkedList T) :=
  if k < 0 then .error .assertionFailed
  else if k = 0 then pure l
  else do
    let l1 ← rotate l (k - 1)
    rotateStep l1
termination_by k.toNat
decreasing_by omega

/-- Member `clear`: `while (!isEmpty()) remove(0);`.  The loop need not end on an ill-formed
state (a negative counter makes `remove(0)` refuse for ever), so the number of evaluations of
the loop condition is bounded by `fuel`.  The second component of the result is a ghost
counter: how many of the `remove(0)` calls returned true. -/
def clear : Nat → LinkedList T → Except Err (LinkedList T × Nat)
  | 0, _ => .error .outOfFuel
  | fuel + 1, l =>
    if !isEmpty l then do
      let (removed, l1) ← remove l 0
      let (l2, n) ← clear fuel l1
      pure (l2, if removed then n + 1 else n)
    else
      pure (l, 0)

/-- The call sequence `remove(0); ...; remove(0)` with `n` calls, each of which has to return
true: the state after the last call, or `none` if a call fails or returns false. -/
def removeHeadTimes : Nat → LinkedList T → Option (LinkedList T)
  | 0, l => some l
  | n + 1, l =>
    match remove l 0 with
    | .ok (true, l1) => removeHeadTimes n l1
    | _ => none

/-- Modelled from the spec: `Node<T>::setItem`, called through pointer `p`. -/
def setItem (m : Mem T) (p : Option Nat) (v : T) : Except Err (Mem T) :=
  match p with
  | none => .error .nullDeref
  | some a =>
    match read m a with
    | some nd => .ok (m.set a (some { nd with item_ := v }))
    | none => .error .invalidDeref

/-- The `while (orig_chain_pointer != nullptr)` loop of the copy constructor.  It follows the
source chain, which need not end, so the number of evaluations of the loop condition is
bounded by `fuel`.  Returns the store and the final `new_chain_ptr`. -/
def copyLoop : Nat → Mem T → Option Nat → Option Nat → Except Err (Mem T × Option Nat)
  | 0, _, _, _ => .error .outOfFuel
  | fuel + 1, m, orig_chain_pointer, new_chain_ptr =>
    if orig_chain_pointer ≠ none then do
      let next_item ← getItem m orig_chain_pointer
      let (new_node_ptr, m1) := newNode m next_item
      let m2 ← setNext m1 new_chain_ptr new_node_ptr
      let new_chain_ptr1 ← getNext m2 new_chain_ptr
      let orig_chain_pointer1 ← getNext m2 orig_chain_pointer
      copyLoop fuel m2 orig_chain_pointer1 new_chain_ptr1
    else
      pure (m, new_chain_ptr)

/-- Copy constructor `LinkedList(const LinkedList<T>& a_list)`.  The new object is built in
the store the source lives in; the source object is afterwards `a_list` read in the returned
store.  `dflt` is the item a default-constructed `Node<T>()` holds before `setItem`. -/
def copyConstruct (dflt : T) (fuel : Nat) (a_list : LinkedList T) :
    Except Err (LinkedList T) :=
  let orig_chain_pointer := a_list.head_ptr_
  if orig_chain_pointer = none then
    pure { mem := a_list.mem, head_ptr_ := none, item_count_ := a_list.item_count_ }
  else do
    let (head, m1) := newNode a_list.mem dflt
    let first_item ← getItem m1 orig_chain_pointer
    let m2 ← setItem m1 head first_item
    let orig_chain_pointer1 ← getNext m2 orig_chain_pointer
    let (m3, new_chain_ptr) ← copyLoop fuel m2 orig_chain_pointer1 head
    let m4 ← setNext m3 new_chain_ptr none
    pure { mem := m4, head_ptr_ := head, item_count_ := a_list.item_count_ }

/-! ## Client call sequences -/

/-- A call of one of the two positional mutators, with its arguments. -/
inductive Op (T : Type) where
  | insert (position : Int) (new_entry : T)
  | remove (position : Int)

/-- Perform one call and drop the boolean it returns. -/
def applyOp (l : LinkedList T) : Op T → Except Err (LinkedList T)
  | .insert position new_entry =>
    match insert l position new_entry with
    | .ok (_, l1) => .ok l1
    | .error e => .error e
  | .remove position =>
    match remove l position with
    | .ok (_, l1) => .ok l1
    | .error e => .error e

/-- Perform a sequence of calls, left to right. -/
def run : List (Op T) → LinkedList T → Except Err (LinkedList T)
  | [], l => .ok l
  | op :: ops, l =>
    match applyOp l op with
    | .ok l1 => run ops l1
    | .error e => .error e

/-! ## Abstraction: the chain seen as a list of cells -/

/-- `Seg m p cs q`: following successor pointers in `m` from `p` visits exactly
the cells `cs` (address and element, in order) and then arrives at `q`. -/
def Seg (m : Mem T) : Option Nat → List (Nat × T) → Option Nat → Prop
  | p, [], q => p = q
  | p, c :: cs, q => p = some c.1 ∧ ∃ nx, read m c.1 = some ⟨c.2, nx⟩ ∧ Seg m nx cs q

/-- Addresses of a list of cells. -/
def addrs (cs : List (Nat × T)) : List Nat := cs.map Prod.fst

/-- Elements of a list of cells. -/
def elems (cs : List (Nat × T)) : List T := cs.map Prod.snd

/-- `Models l cs`: `l` is well formed and its chain is `cs`: the chain from
`head_ptr_` runs through the cells `cs` and ends in `nullptr`, no cell occurs
twice, and `item_count_` is the number of cells. -/
def Models (l : LinkedList T) (cs : List (Nat × T)) : Prop :=
  Seg l.mem l.head_ptr_ cs none ∧ (addrs cs).Nodup ∧ l.item_count_ = cs.length

/-- One right-rotation step on a sequence: the last element moves to the front. -/
def rotR1 {α : Type} (xs : List α) : List α :=
  match xs.getLast? with
  | some x => x :: xs.dropLast
  | none => []

/-- Right rotation by `k` places as `k` single steps. -/
def rotR {α : Type} : Nat → List α → List α
  | 0, xs => xs
  | k + 1, xs => rotR1 (rotR k xs)

/-- The list `[10, 20, 30, 40]` of the spec's scenario, laid out at addresses 0..3. -/
def demo4 : LinkedList Nat :=
  { mem := [some ⟨10, some 1⟩, some ⟨20, some 2⟩, some ⟨30, some 3⟩, some ⟨40, none⟩],
    head_ptr_ := some 0,
    item_count_ := 4 }

/-- The chain of `demo4`. -/
def demo4Cells : List (Nat × Nat) := [(0, 10), (1, 20), (2, 30), (3, 40)]

/-! ## The free store -/

theorem read_lt {m : Mem T} {a : Nat} {nd : Node T} (h : read m a = some nd) :
    a < m.length := by
  unfold read at h
  by_contra hlt
  rw [List.get?_eq_none.mpr (by omega)] at h
  simp at h

theorem read_set_same {m : Mem T} {a : Nat} (x : Option (Node T)) (h : a < m.length) :
    read (m.set a x) a = x := by
  unfold read
  rw [List.get?_eq_getElem?, List.getElem?_set_self h]
  cases x <;> rfl

theorem read_set_other {m : Mem T} {a b : Nat} (x : Option (Node T)) (h : a ≠ b) :
    read (m.set a x) b = read m b := by
  unfold read
  rw [List.get?_eq_getElem?, List.get?_eq_getElem?, List.getElem?_set_ne h]

theorem read_push_old {m : Mem T} {b : Nat} (x : Option (Node T)) (h : b < m.length) :
    read (m ++ [x]) b = read m b := by
  unfold read
  rw [List.get?_eq_getElem?, List.get?_eq_getElem?, List.getElem?_append_left h]

theorem read_push_new (m : Mem T) (x : Option (Node T)) :
    read (m ++ [x]) m.length = x := by
  unfold read
  rw [List.get?_eq_getElem?, List.getElem?_append_right (le_refl _)]
  cases x <;> simp

theorem mem_ext {m m' : Mem T} (hl : m.length = m'.length)
    (h : ∀ a, read m a = read m' a) : m = m' := by
  apply List.ext_getElem hl
  intro a h1 h2
  have := h a
  unfold read at this
  rw [List.get?_eq_getElem?, List.get?_eq_getElem?, List.getElem?_eq_getElem h1,
    List.getElem?_eq_getElem h2] at this
  cases hx : m[a] <;> cases hy : m'[a] <;> simp_all

theorem setNext_ok {m : Mem T} {a : Nat} {nd : Node T} (h : read m a = some nd)
    (nx : Option Nat) :
    setNext m (some a) nx = .ok (m.set a (some { nd with next_ := nx })) := by
  simp [setNext, h]

theorem getNext_ok {m : Mem T} {a : Nat} {nd : Node T} (h : read m a = some nd) :
    getNext m (some a) = .ok nd.next_ := by
  simp [getNext, deref, h]

theorem getItem_ok {m : Mem T} {a : Nat} {nd : Node T} (h : read m a = some nd) :
    getItem m (some a) = .ok nd.item_ := by
  simp [getItem, deref, h]

/-! ## Segments -/

theorem Seg_nil {m : Mem T} {p q : Option Nat} : Seg m p [] q ↔ p = q := Iff.rfl

theorem Seg_cons {m : Mem T} {p q : Option Nat} {c : Nat × T} {cs : List (Nat × T)} :
    Seg m p (c :: cs) q ↔
      p = some c.1 ∧ ∃ nx, read m c.1 = some ⟨c.2, nx⟩ ∧ Seg m nx cs q := Iff.rfl

theorem Seg_congr {m m' : Mem T} {cs : List (Nat × T)}
    (h : ∀ c ∈ cs, read m' c.1 = read m c.1) {p q : Option Nat}
    (hs : Seg m p cs q) : Seg m' p cs q := by
  induction cs generalizing p with
  | nil => exact hs
  | cons c cs ih =>
    obtain ⟨hp, nx, hr, hrest⟩ := hs
    refine ⟨hp, nx, ?_, ih (fun d hd => h d (List.mem_cons_of_mem _ hd)) hrest⟩
    rw [h c (List.mem_cons_self _ _), hr]

theorem Seg_append {m : Mem T} {cs1 cs2 : List (Nat × T)} {p q : Option Nat} :
    Seg m p (cs1 ++ cs2) q ↔ ∃ r, Seg m p cs1 r ∧ Seg m r cs2 q := by
  induction cs1 generalizing p with
  | nil =>
    constructor
    · intro h
      exact ⟨p, rfl, h⟩
    · rintro ⟨r, h1, h2⟩
      rw [Seg_nil] at h1
      subst h1
      exact h2
  | cons c cs ih =>
    rw [List.cons_append, Seg_cons]
    constructor
    · rintro ⟨hp, nx, hr, hrest⟩
      obtain ⟨r, h1, h2⟩ := ih.mp hrest
      exact ⟨r, ⟨hp, nx, hr, h1⟩, h2⟩
    · rintro ⟨r, ⟨hp, nx, hr, h1⟩, h2⟩
      exact ⟨hp, nx, hr, ih.mpr ⟨r, h1, h2⟩⟩

theorem Seg_live {m : Mem T} {cs : List (Nat × T)} {p q : Option Nat}
    (hs : Seg m p cs q) : ∀ c ∈ cs, ∃ nx, read m c.1 = some ⟨c.2, nx⟩ := by
  induction cs generalizing p with
  | nil => intro c hc; cases hc
  | cons d ds ih =>
    obtain ⟨_, nx, hr, hrest⟩ := hs
    intro c hc
    rcases List.mem_cons.mp hc with rfl | hc
    · exact ⟨nx, hr⟩
    · exact ih hrest c hc

theorem Seg_lt {m : Mem T} {cs : List (Nat × T)} {p q : Option Nat}
    (hs : Seg m p cs q) : ∀ a ∈ addrs cs, a < m.length := by
  intro a ha
  obtain ⟨c, hc, rfl⟩ := List.mem_map.mp ha
  obtain ⟨nx, hr⟩ := Seg_live hs c hc
  exact read_lt hr

/-- Two stores of the same chain agree on the chain's cells. -/
theorem Seg_read_eq {m m' : Mem T} {cs : List (Nat × T)} {p p' q : Option Nat}
    (hs : Seg m p cs q) (hs' : Seg m' p' cs q) :
    ∀ a ∈ addrs cs, read m a = read m' a := by
  induction cs generalizing p p' with
  | nil => intro a ha; cases ha
  | cons d ds ih =>
    obtain ⟨_, nx, hr, hrest⟩ := hs
    obtain ⟨_, nx', hr', hrest'⟩ := hs'
    have hnx : nx = nx' := by
      cases ds with
      | nil => exact hrest.trans hrest'.symm
      | cons e es => exact hrest.1.trans hrest'.1.symm
    subst hnx
    intro a ha
    rcases List.mem_cons.mp ha with rfl | ha
    · rw [hr, hr']
    · exact ih hrest hrest' a ha

theorem getNodeAtLoop_seg {m : Mem T} {cs : List (Nat × T)} {p q : Option Nat}
    (hs : Seg m p cs q) : getNodeAtLoop m cs.length p = .ok q := by
  induction cs generalizing p with
  | nil =>
    rw [Seg_nil] at hs
    subst hs
    rfl
  | cons c cs ih =>
    obtain ⟨hp, nx, hr, hrest⟩ := hs
    subst hp
    simp only [List.length_cons, getNodeAtLoop, getNext_ok hr]
    exact ih hrest

/-- Walking `k` links along a null-terminated chain of more than `k` cells
arrives at cell `k`. -/
theorem getNodeAtLoop_chain {m : Mem T} {cs : List (Nat × T)} {p q : Option Nat}
    (hs : Seg m p cs q) (k : Nat) (hk : k < cs.length) :
    getNodeAtLoop m k p = .ok (some cs[k].1) := by
  have hsplit : cs = cs.take k ++ cs[k] :: cs.drop (k + 1) := by
    rw [List.getElem_cons_drop, List.take_append_drop]
  rw [hsplit, Seg_append] at hs
  obtain ⟨r, h1, h2⟩ := hs
  have := getNodeAtLoop_seg h1
  rw [List.length_take, Nat.min_eq_left (le_of_lt hk)] at this
  rw [this, h2.1]

theorem addrs_append (xs ys : List (Nat × T)) : addrs (xs ++ ys) = addrs xs ++ addrs ys :=
  List.map_append _ _ _

theorem addrs_cons (c : Nat × T) (cs : List (Nat × T)) : addrs (c :: cs) = c.1 :: addrs cs :=
  rfl

theorem mem_addrs {c : Nat × T} {cs : List (Nat × T)} (h : c ∈ cs) : c.1 ∈ addrs cs :=
  List.mem_map_of_mem _ h

/-! ## insert -/

theorem insert_front_full {l : LinkedList T} {cs : List (Nat × T)} (hM : Models l cs) (v : T) :
    ∃ l', insert l 0 v = .ok (true, l') ∧ Models l' ((l.mem.length, v) :: cs) ∧
      l'.mem.length = l.mem.length + 1 ∧
      (∀ b, b < l.mem.length → read l'.mem b = read l.mem b) := by
  obtain ⟨hseg, hnd, hcnt⟩ := hM
  have hlt := Seg_lt hseg
  have hra := read_push_new l.mem (some ({ item_ := v, next_ := none } : Node T))
  refine ⟨{ mem := (l.mem ++ [some (Node.mk v none)]).set l.mem.length
              (some (Node.mk v l.head_ptr_)),
            head_ptr_ := some l.mem.length,
            item_count_ := l.item_count_ + 1 }, ?_, ⟨?_, ?_, ?_⟩, ?_, ?_⟩
  · have hrange : (0 : Int) ≥ 0 ∧ (0 : Int) ≤ l.item_count_ := by
      rw [hcnt]; simp
    simp only [insert, newNode, if_pos hrange, if_true, setNext_ok hra, bind, Except.bind]
    rfl
  · refine ⟨rfl, l.head_ptr_, read_set_same _ (by simp), Seg_congr ?_ hseg⟩
    intro c hc
    have := hlt c.1 (mem_addrs hc)
    rw [read_set_other _ (by simp; omega), read_push_old _ this]
  · rw [addrs_cons, List.nodup_cons]
    exact ⟨fun h => lt_irrefl _ (hlt _ h), hnd⟩
  · simp [hcnt]
  · simp
  · intro b hb
    show read ((l.mem ++ _).set l.mem.length _) b = read l.mem b
    rw [read_set_other _ (by omega), read_push_old _ hb]

theorem insert_front {l : LinkedList T} {cs : List (Nat × T)} (hM : Models l cs) (v : T) :
    ∃ l', insert l 0 v = .ok (true, l') ∧ Models l' ((l.mem.length, v) :: cs) := by
  obtain ⟨l', he, hm, _⟩ := insert_front_full hM v
  exact ⟨l', he, hm⟩

theorem insert_after_full {l : LinkedList T} {A B : List (Nat × T)} {c : Nat × T}
    (hM : Models l (A ++ c :: B)) (v : T) :
    ∃ l', insert l ((A.length : Int) + 1) v = .ok (true, l') ∧
      Models l' (A ++ c :: (l.mem.length, v) :: B) ∧
      l'.mem.length = l.mem.length + 1 ∧
      (∀ b, b < l.mem.length → b ∉ addrs (A ++ c :: B) → read l'.mem b = read l.mem b) := by
  obtain ⟨hseg, hnd, hcnt⟩ := hM
  have hlt := Seg_lt hseg
  have hold : ∀ b, b < l.mem.length →
      read (l.mem ++ [some ({ item_ := v, next_ := none } : Node T)]) b = read l.mem b :=
    fun b hb => read_push_old _ hb
  have hra := read_push_new l.mem (some ({ item_ := v, next_ := none } : Node T))
  have hseg1 : Seg (l.mem ++ [some ({ item_ := v, next_ := none } : Node T)])
      l.head_ptr_ (A ++ c :: B) none :=
    Seg_congr (fun d hd => hold _ (hlt d.1 (mem_addrs hd))) hseg
  obtain ⟨r, hA, hr, nx, hc, hB⟩ := Seg_append.mp hseg1
  subst hr
  have hca : c.1 < l.mem.length := hlt c.1 (mem_addrs (by simp))
  rw [addrs_append, addrs_cons, List.nodup_append, List.nodup_cons] at hnd
  obtain ⟨hndA, ⟨hcB, hndB⟩, hdisj⟩ := hnd
  have hc2 : read ((l.mem ++ [some ({ item_ := v, next_ := none } : Node T)]).set l.mem.length
      (some { item_ := v, next_ := nx })) c.1 = some ⟨c.2, nx⟩ := by
    rw [read_set_other _ (by omega), hc]
  refine ⟨{ mem := ((l.mem ++ [some (Node.mk v none)]).set l.mem.length
              (some (Node.mk v nx))).set c.1 (some (Node.mk c.2 (some l.mem.length))),
            head_ptr_ := l.head_ptr_,
            item_count_ := l.item_count_ + 1 }, ?_, ⟨?_, ?_, ?_⟩, ?_, ?_⟩
  · have hpos : ¬ ((A.length : Int) + 1 = 0) := by omega
    have hrange : (A.length : Int) + 1 ≥ 0 ∧ (A.length : Int) + 1 ≤ l.item_count_ := by
      rw [hcnt, List.length_append, List.length_cons]
      omega
    simp only [insert, newNode, if_pos hrange, if_neg hpos, getNodeAt, add_sub_cancel_right,
      Int.toNat_ofNat, getNodeAtLoop_seg hA, bind, Except.bind, getNext_ok hc,
      setNext_ok hra, setNext_ok hc2]
    rfl
  · refine Seg_append.mpr ⟨some c.1, Seg_congr ?_ hA, rfl, some l.mem.length, ?_, rfl, nx, ?_,
      Seg_congr ?_ hB⟩
    · intro d hd
      have h1 : d.1 ≠ c.1 := fun h => hdisj (mem_addrs hd) (h ▸ List.mem_cons_self _ _)
      have h2 := hlt d.1 (mem_addrs (by simp [hd]))
      rw [read_set_other _ (Ne.symm h1), read_set_other _ (by omega)]
    · rw [read_set_same _ (by simp; omega)]
    · rw [read_set_other _ (by omega), read_set_same _ (by simp)]
    · intro d hd
      have h1 : d.1 ≠ c.1 := fun h => hcB (h ▸ mem_addrs hd)
      have h2 := hlt d.1 (mem_addrs (by simp [hd]))
      rw [read_set_other _ (Ne.symm h1), read_set_other _ (by omega)]
  · rw [addrs_append, addrs_cons, addrs_cons, List.nodup_append, List.nodup_cons,
      List.nodup_cons]
    refine ⟨hndA, ⟨?_, ?_, hndB⟩, ?_⟩
    · intro h
      rcases List.mem_cons.mp h with h | h
      · omega
      · exact hcB h
    · intro h
      exact lt_irrefl _ (hlt _ (by rw [addrs_append, addrs_cons]; simp [h]))
    · intro x hx hx'
      rcases List.mem_cons.mp hx' with h | h
      · exact hdisj hx (h ▸ List.mem_cons_self _ _)
      · rcases List.mem_cons.mp h with h | h
        · subst h
          exact lt_irrefl _ (hlt _ (by rw [addrs_append]; simp [hx]))
        · exact hdisj hx (List.mem_cons_of_mem _ h)
  · simp [hcnt]
    omega
  · simp
  · intro b hb hnot
    have hbc : c.1 ≠ b := fun h => hnot (by rw [addrs_append, addrs_cons, ← h]; simp)
    show read (((l.mem ++ _).set l.mem.length _).set c.1 _) b = read l.mem b
    rw [read_set_other _ hbc, read_set_other _ (by omega), read_push_old _ hb]

theorem insert_after {l : LinkedList T} {A B : List (Nat × T)} {c : Nat × T}
    (hM : Models l (A ++ c :: B)) (v : T) :
    ∃ l', insert l ((A.length : Int) + 1) v = .ok (true, l') ∧
      Models l' (A ++ c :: (l.mem.length, v) :: B) := by
  obtain ⟨l', he, hm, _⟩ := insert_after_full hM v
  exact ⟨l', he, hm⟩

theorem getElem?_insertAt_lt {α : Type} (xs : List α) (k : Nat) (x : α) (hk : k ≤ xs.length)
    (i : Nat) (h : i < k) : (xs.take k ++ x :: xs.drop k)[i]? = xs[i]? := by
  rw [List.getElem?_append_left (by rw [List.length_take]; omega), List.getElem?_take_of_lt h]

theorem getElem?_insertAt_at {α : Type} (xs : List α) (k : Nat) (x : α) (hk : k ≤ xs.length) :
    (xs.take k ++ x :: xs.drop k)[k]? = some x := by
  rw [List.getElem?_append_right (by rw [List.length_take]; omega)]
  simp [Nat.min_eq_left hk]

theorem getElem?_insertAt_ge {α : Type} (xs : List α) (k : Nat) (x : α) (hk : k ≤ xs.length)
    (i : Nat) (h : k ≤ i) : (xs.take k ++ x :: xs.drop k)[i + 1]? = xs[i]? := by
  rw [List.getElem?_append_right (by rw [List.length_take]; omega), List.length_take,
    Nat.min_eq_left hk, show i + 1 - k = (i - k) + 1 by omega, List.getElem?_cons_succ,
    List.getElem?_drop]
  congr 1
  omega

/-- C1: on a well-formed list with chain `cs` and for `0 ≤ p ≤ length`, `insert(p, v)` returns
true; the new chain is the first `p` cells of `cs`, then one new cell holding `v`, then the
remaining cells of `cs`; the length is one more; every cell before `p` keeps its position and
every cell at position `i ≥ p` is now at `i + 1`. -/
theorem insert_in_range (l : LinkedList T) (cs : List (Nat × T)) (p : Int) (v : T)
    (hM : Models l cs) (h0 : 0 ≤ p) (h1 : p ≤ cs.length) :
    ∃ l' cs', insert l p v = .ok (true, l') ∧ Models l' cs' ∧
      cs' = cs.take p.toNat ++ (l.mem.length, v) :: cs.drop p.toNat ∧
      elems cs' = (elems cs).take p.toNat ++ v :: (elems cs).drop p.toNat ∧
      getLength l' = cs.length + 1 ∧
      (∀ i, i < p.toNat → cs'[i]? = cs[i]?) ∧
      cs'[p.toNat]? = some (l.mem.length, v) ∧
      (∀ i, p.toNat ≤ i → cs'[i + 1]? = cs[i]?) := by
  obtain ⟨k, rfl⟩ := Int.eq_ofNat_of_zero_le h0
  have hk : k ≤ cs.length := by omega
  rw [Int.toNat_ofNat]
  have key : ∃ l', insert l (k : Int) v = .ok (true, l') ∧
      Models l' (cs.take k ++ (l.mem.length, v) :: cs.drop k) := by
    cases k with
    | zero => simpa using insert_front hM v
    | succ j =>
      have hj : j < cs.length := by omega
      have hsplit : cs = cs.take j ++ cs[j] :: cs.drop (j + 1) := by
        rw [List.getElem_cons_drop, List.take_append_drop]
      have hM' : Models l (cs.take j ++ cs[j] :: cs.drop (j + 1)) := by
        rw [← hsplit]; exact hM
      obtain ⟨l', he, hm⟩ := insert_after hM' v
      rw [List.length_take, Nat.min_eq_left (le_of_lt hj)] at he
      refine ⟨l', by exact_mod_cast he, ?_⟩
      have ht : cs.take (j + 1) = cs.take j ++ [cs[j]] := by
        rw [List.take_succ, List.getElem?_eq_getElem hj]; rfl
      rw [ht, List.append_assoc]
      exact hm
  obtain ⟨l', he, hm⟩ := key
  refine ⟨l', _, he, hm, rfl, ?_, ?_, getElem?_insertAt_lt cs k _ hk,
    getElem?_insertAt_at cs k _ hk, getElem?_insertAt_ge cs k _ hk⟩
  · simp [elems, List.map_take, List.map_drop]
  · rw [getLength, hm.2.2, List.length_append, List.length_cons, List.length_take,
      List.length_drop, Nat.min_eq_left hk]
    push_cast
    omega

theorem demo4_models : Models demo4 demo4Cells :=
  ⟨⟨rfl, _, rfl, rfl, _, rfl, rfl, _, rfl, rfl, _, rfl, rfl⟩, by decide, rfl⟩

/-- C1, the spec's scenario: `insert(2, 99)` on `[10,20,30,40]` gives `[10,20,99,30,40]`,
length 5, and returns true. -/
theorem insert_in_range_witness :
    Models demo4 demo4Cells ∧ (0 : Int) ≤ 2 ∧ (2 : Int) ≤ demo4Cells.length ∧
    ∃ l' cs', insert demo4 2 99 = .ok (true, l') ∧ Models l' cs' ∧
      cs' = [(0, 10), (1, 20), (4, 99), (2, 30), (3, 40)] ∧
      elems cs' = [10, 20, 99, 30, 40] ∧ getLength l' = 5 := by
  refine ⟨demo4_models, by decide, by decide, ?_⟩
  obtain ⟨l', cs', he, hm, hcs, hel, hlen, _⟩ :=
    insert_in_range demo4 demo4Cells 2 99 demo4_models (by decide) (by decide)
  exact ⟨l', cs', he, hm, hcs, hel, hlen⟩

/-! ## remove -/

theorem remove_front_full {l : LinkedList T} {d : Nat × T} {B : List (Nat × T)}
    (hM : Models l (d :: B)) :
    ∃ l', remove l 0 = .ok (true, l') ∧ Models l' B ∧
      l'.mem.length = l.mem.length ∧
      (∀ b, b ∉ addrs (d :: B) → read l'.mem b = read l.mem b) ∧
      read l'.mem d.1 = none := by
  obtain ⟨⟨hp, nx, hd, hB⟩, hnd, hcnt⟩ := hM
  rw [addrs_cons, List.nodup_cons] at hnd
  have hlt := read_lt hd
  have hd1 : read (l.mem.set d.1 (some (Node.mk d.2 none))) d.1 = some (Node.mk d.2 none) :=
    read_set_same _ hlt
  refine ⟨{ mem := (l.mem.set d.1 (some (Node.mk d.2 none))).set d.1 none,
            head_ptr_ := nx,
            item_count_ := l.item_count_ - 1 }, ?_, ⟨?_, hnd.2, ?_⟩, ?_, ?_, ?_⟩
  · have hrange : (0 : Int) ≥ 0 ∧ (0 : Int) < l.item_count_ := by
      rw [hcnt, List.length_cons]
      omega
    simp only [remove, if_pos hrange, if_true, hp, getNext_ok hd, setNext_ok hd, bind,
      Except.bind, deleteNode, hd1]
    rfl
  · refine Seg_congr ?_ hB
    intro e he
    have h1 : d.1 ≠ e.1 := fun h => hnd.1 (h ▸ mem_addrs he)
    rw [read_set_other _ h1, read_set_other _ h1]
  · simp [hcnt]
  · simp
  · intro b hb
    have hbd : d.1 ≠ b := fun h => hb (by rw [addrs_cons, ← h]; simp)
    show read ((l.mem.set d.1 _).set d.1 _) b = read l.mem b
    rw [read_set_other _ hbd, read_set_other _ hbd]
  · exact read_set_same _ (by rw [List.length_set]; exact hlt)

theorem remove_front {l : LinkedList T} {d : Nat × T} {B : List (Nat × T)}
    (hM : Models l (d :: B)) :
    ∃ l', remove l 0 = .ok (true, l') ∧ Models l' B := by
  obtain ⟨l', he, hm, _⟩ := remove_front_full hM
  exact ⟨l', he, hm⟩

theorem remove_after_full {l : LinkedList T} {A B : List (Nat × T)} {c d : Nat × T}
    (hM : Models l (A ++ c :: d :: B)) :
    ∃ l', remove l ((A.length : Int) + 1) = .ok (true, l') ∧ Models l' (A ++ c :: B) ∧
      l'.mem.length = l.mem.length ∧
      (∀ b, b ∉ addrs (A ++ c :: d :: B) → read l'.mem b = read l.mem b) := by
  obtain ⟨hseg, hnd, hcnt⟩ := hM
  obtain ⟨r, hA, hr, nc, hc, hd0, nx, hd, hB⟩ := Seg_append.mp hseg
  subst hr
  subst hd0
  rw [addrs_append, addrs_cons, addrs_cons, List.nodup_append, List.nodup_cons,
    List.nodup_cons] at hnd
  obtain ⟨hndA, ⟨hcdB, hdB, hndB⟩, hdisj⟩ := hnd
  have hcd : c.1 ≠ d.1 := fun h => hcdB (h ▸ List.mem_cons_self _ _)
  have hcB : c.1 ∉ addrs B := fun h => hcdB (List.mem_cons_of_mem _ h)
  have hd1 : read (l.mem.set c.1 (some (Node.mk c.2 nx))) d.1 = some (Node.mk d.2 nx) := by
    rw [read_set_other _ hcd, hd]
  have hd2 : read ((l.mem.set c.1 (some (Node.mk c.2 nx))).set d.1 (some (Node.mk d.2 none))) d.1
      = some (Node.mk d.2 none) :=
    read_set_same _ (by rw [List.length_set]; exact read_lt hd)
  refine ⟨{ mem := ((l.mem.set c.1 (some (Node.mk c.2 nx))).set d.1
              (some (Node.mk d.2 none))).set d.1 none,
            head_ptr_ := l.head_ptr_,
            item_count_ := l.item_count_ - 1 }, ?_, ⟨?_, ?_, ?_⟩, ?_, ?_⟩
  · have hpos : ¬ ((A.length : Int) + 1 = 0) := by omega
    have hrange : (A.length : Int) + 1 ≥ 0 ∧ (A.length : Int) + 1 < l.item_count_ := by
      rw [hcnt, List.length_append, List.length_cons, List.length_cons]
      omega
    simp only [remove, if_pos hrange, if_neg hpos, getNodeAt, add_sub_cancel_right,
      Int.toNat_ofNat, getNodeAtLoop_seg hA, bind, Except.bind, getNext_ok hc, getNext_ok hd,
      setNext_ok hc, setNext_ok hd1, deleteNode, hd2]
    rfl
  · refine Seg_append.mpr ⟨some c.1, Seg_congr ?_ hA, rfl, nx, ?_, Seg_congr ?_ hB⟩
    · intro e he
      have h1 : c.1 ≠ e.1 := fun h => hdisj (mem_addrs he) (h ▸ List.mem_cons_self _ _)
      have h2 : d.1 ≠ e.1 := fun h =>
        hdisj (mem_addrs he) (h ▸ List.mem_cons_of_mem _ (List.mem_cons_self _ _))
      rw [read_set_other _ h2, read_set_other _ h2, read_set_other _ h1]
    · rw [read_set_other _ (Ne.symm hcd), read_set_other _ (Ne.symm hcd),
        read_set_same _ (read_lt hc)]
    · intro e he
      have h1 : c.1 ≠ e.1 := fun h => hcB (h ▸ mem_addrs he)
      have h2 : d.1 ≠ e.1 := fun h => hdB (h ▸ mem_addrs he)
      rw [read_set_other _ h2, read_set_other _ h2, read_set_other _ h1]
  · rw [addrs_append, addrs_cons, List.nodup_append, List.nodup_cons]
    refine ⟨hndA, ⟨hcB, hndB⟩, ?_⟩
    intro x hx hx'
    rcases List.mem_cons.mp hx' with h | h
    · exact hdisj hx (h ▸ List.mem_cons_self _ _)
    · exact hdisj hx (List.mem_cons_of_mem _ (List.mem_cons_of_mem _ h))
  · simp [hcnt]
    omega
  · simp
  · intro b hb
    have hbc : c.1 ≠ b := fun h => hb (by rw [addrs_append, addrs_cons, ← h]; simp)
    have hbd : d.1 ≠ b := fun h =>
      hb (by rw [addrs_append, addrs_cons, addrs_cons, ← h]; simp)
    show read (((l.mem.set c.1 _).set d.1 _).set d.1 _) b = read l.mem b
    rw [read_set_other _ hbd, read_set_other _ hbd, read_set_other _ hbc]

theorem remove_after {l : LinkedList T} {A B : List (Nat × T)} {c d : Nat × T}
    (hM : Models l (A ++ c :: d :: B)) :
    ∃ l', remove l ((A.length : Int) + 1) = .ok (true, l') ∧ Models l' (A ++ c :: B) := by
  obtain ⟨l', he, hm, _⟩ := remove_after_full hM
  exact ⟨l', he, hm⟩

/-- C2: on a well-formed list with chain `cs` and for `0 ≤ p < length`, `remove(p)` returns
true and the new chain is `cs` with exactly the cell at index `p` erased: the length is one
less, cells before `p` keep their position and a cell formerly at `i > p` is now at `i - 1`. -/
theorem remove_in_range (l : LinkedList T) (cs : List (Nat × T)) (p : Int)
    (hM : Models l cs) (h0 : 0 ≤ p) (h1 : p < cs.length) :
    ∃ l' cs', remove l p = .ok (true, l') ∧ Models l' cs' ∧
      cs' = cs.eraseIdx p.toNat ∧
      elems cs' = (elems cs).eraseIdx p.toNat ∧
      getLength l' = cs.length - 1 ∧
      (∀ i, i < p.toNat → cs'[i]? = cs[i]?) ∧
      (∀ i, p.toNat < i → cs'[i - 1]? = cs[i]?) := by
  obtain ⟨k, rfl⟩ := Int.eq_ofNat_of_zero_le h0
  have hk : k < cs.length := by omega
  rw [Int.toNat_ofNat]
  have key : ∃ l', remove l (k : Int) = .ok (true, l') ∧ Models l' (cs.eraseIdx k) := by
    cases k with
    | zero =>
      cases cs with
      | nil => simp at hk
      | cons d B => simpa using remove_front hM
    | succ j =>
      have hj : j < cs.length := by omega
      have hsplit : cs = cs.take j ++ cs[j] :: cs[j + 1] :: cs.drop (j + 1 + 1) := by
        rw [List.getElem_cons_drop, List.getElem_cons_drop, List.take_append_drop]
      have hM' : Models l (cs.take j ++ cs[j] :: cs[j + 1] :: cs.drop (j + 1 + 1)) := by
        rw [← hsplit]; exact hM
      obtain ⟨l', he, hm⟩ := remove_after hM'
      rw [List.length_take, Nat.min_eq_left (le_of_lt hj)] at he
      refine ⟨l', by exact_mod_cast he, ?_⟩
      have ht : cs.take (j + 1) = cs.take j ++ [cs[j]] := by
        rw [List.take_succ, List.getElem?_eq_getElem hj]; rfl
      rw [List.eraseIdx_eq_take_drop_succ, ht, List.append_assoc]
      exact hm
  obtain ⟨l', he, hm⟩ := key
  refine ⟨l', _, he, hm, rfl, ?_, ?_, ?_, ?_⟩
  · simp [elems, List.eraseIdx_eq_take_drop_succ, List.map_take, List.map_drop]
  · rw [getLength, hm.2.2, List.length_eraseIdx_of_lt hk]
    omega
  · intro i hi
    exact List.getElem?_eraseIdx_of_lt cs k i hi
  · intro i hi
    rw [List.getElem?_eraseIdx_of_ge cs k (i - 1) (by omega)]
    congr 1
    omega

/-- C2, the spec's scenario shape: `remove(1)` on `[10,20,30,40]` gives `[10,30,40]`,
length 3, and returns true. -/
theorem remove_in_range_witness :
    Models demo4 demo4Cells ∧ (0 : Int) ≤ 1 ∧ (1 : Int) < demo4Cells.length ∧
    ∃ l' cs', remove demo4 1 = .ok (true, l') ∧ Models l' cs' ∧
      cs' = [(0, 10), (2, 30), (3, 40)] ∧ elems cs' = [10, 30, 40] ∧ getLength l' = 3 := by
  refine ⟨demo4_models, by decide, by decide, ?_⟩
  obtain ⟨l', cs', he, hm, hcs, hel, hlen, _⟩ :=
    remove_in_range demo4 demo4Cells 1 demo4_models (by decide) (by decide)
  exact ⟨l', cs', he, hm, hcs, hel, hlen⟩

/-! ## getEntry -/

/-- C3: on a well-formed list with chain `cs`, `getEntry(p)` raises the precondition-violation
error exactly when `p < 0` or `p ≥ length`, and otherwise returns the element stored at
position `p`.  (`getEntry` is a `const` member: it has no way to change the list.) -/
theorem getEntry_total (l : LinkedList T) (cs : List (Nat × T)) (p : Int)
    (hM : Models l cs) :
    (getEntry l p = .error .precondViolatedExcep ↔ p < 0 ∨ p ≥ cs.length) ∧
    (0 ≤ p → p < cs.length →
      ∃ x, (elems cs)[p.toNat]? = some x ∧ getEntry l p = .ok x) := by
  obtain ⟨hseg, hnd, hcnt⟩ := hM
  have hin : 0 ≤ p → p < cs.length →
      ∃ x, (elems cs)[p.toNat]? = some x ∧ getEntry l p = .ok x := by
    intro h0 h1
    obtain ⟨k, rfl⟩ := Int.eq_ofNat_of_zero_le h0
    have hk : k < cs.length := by omega
    obtain ⟨nx, hr⟩ := Seg_live hseg cs[k] (List.getElem_mem hk)
    refine ⟨cs[k].2, ?_, ?_⟩
    · simp [elems, List.getElem?_eq_getElem hk]
    · have hrange : (k : Int) ≥ 0 ∧ (k : Int) < l.item_count_ := by
        rw [hcnt]; omega
      simp only [getEntry, if_pos hrange, getNodeAt, Int.toNat_ofNat,
        getNodeAtLoop_chain hseg k hk, bind, Except.bind, getItem_ok hr]
  refine ⟨⟨?_, ?_⟩, hin⟩
  · intro herr
    by_contra hcon
    obtain ⟨x, _, hx⟩ := hin (by omega) (by omega)
    rw [hx] at herr
    cases herr
  · intro hout
    have hrange : ¬ (p ≥ 0 ∧ p < l.item_count_) := by
      rw [hcnt]; omega
    simp only [getEntry, if_neg hrange]

/-- C3, the spec's scenario: on the length-4 list `getEntry(10)` raises and `getEntry(2)`
returns 30. -/
theorem getEntry_total_witness :
    Models demo4 demo4Cells ∧
    getEntry demo4 10 = .error .precondViolatedExcep ∧ getEntry demo4 2 = .ok 30 := by
  refine ⟨demo4_models, ?_, ?_⟩
  · exact (getEntry_total demo4 demo4Cells 10 demo4_models).1.mpr (Or.inr (by decide))
  · obtain ⟨x, hx, he⟩ :=
      (getEntry_total demo4 demo4Cells 2 demo4_models).2 (by decide) (by decide)
    have : x = 30 := by
      have h30 : (elems demo4Cells)[Int.toNat 2]? = some 30 := rfl
      rw [h30] at hx
      exact (Option.some.inj hx).symm
    rw [← this]
    exact he

/-! ## Out-of-range positions -/

/-- C4: for any list and any position `p < 0` or `p > length`, `insert(p, v)` returns false
without error and hands back the very same state (store, head and counter, so no cell was
allocated); and whenever `insert(q, v)` returns true, `0 ≤ q ≤ length`. -/
theorem insert_out_of_range (l : LinkedList T) (p : Int) (v : T)
    (h : p < 0 ∨ p > getLength l) :
    insert l p v = .ok (false, l) ∧
    ∀ (q : Int) (l' : LinkedList T), insert l q v = .ok (true, l') →
      0 ≤ q ∧ q ≤ getLength l := by
  unfold getLength at *
  constructor
  · have hrange : ¬ (p ≥ 0 ∧ p ≤ l.item_count_) := by omega
    simp only [insert, if_neg hrange]
    rfl
  · intro q l' hq
    by_contra hcon
    have hrange : ¬ (q ≥ 0 ∧ q ≤ l.item_count_) := by omega
    simp only [insert, if_neg hrange] at hq
    cases hq

/-- C4, the spec's scenario: `insert(-1, x)` on the length-4 list returns false and changes
nothing. -/
theorem insert_out_of_range_witness :
    ((-1 : Int) < 0 ∨ (-1 : Int) > getLength demo4) ∧ insert demo4 (-1) 7 = .ok (false, demo4) :=
  ⟨Or.inl (by decide), (insert_out_of_range demo4 (-1) 7 (Or.inl (by decide))).1⟩

/-- C5: for any list and any position `p < 0` or `p ≥ length`, `remove(p)` returns false
without error and hands back the very same state (store, head and counter); and whenever
`remove(q)` returns true, `0 ≤ q < length`. -/
theorem remove_out_of_range (l : LinkedList T) (p : Int)
    (h : p < 0 ∨ p ≥ getLength l) :
    remove l p = .ok (false, l) ∧
    ∀ (q : Int) (l' : LinkedList T), remove l q = .ok (true, l') →
      0 ≤ q ∧ q < getLength l := by
  unfold getLength at *
  constructor
  · have hrange : ¬ (p ≥ 0 ∧ p < l.item_count_) := by omega
    simp only [remove, if_neg hrange]
    rfl
  · intro q l' hq
    by_contra hcon
    have hrange : ¬ (q ≥ 0 ∧ q < l.item_count_) := by omega
    simp only [remove, if_neg hrange] at hq
    cases hq

/-- C5 on concrete inputs: `remove(4)` on the length-4 list returns false and changes
nothing. -/
theorem remove_out_of_range_witness :
    ((4 : Int) < 0 ∨ (4 : Int) ≥ getLength demo4) ∧ remove demo4 4 = .ok (false, demo4) :=
  ⟨Or.inr (by decide), (remove_out_of_range demo4 4 (Or.inr (by decide))).1⟩

/-! ## Relinking the last cell of a segment -/

theorem Seg_last_read {m : Mem T} {A : List (Nat × T)} {e : Nat × T} {p q : Option Nat}
    (hs : Seg m p (A ++ [e]) q) :
    Seg m p A (some e.1) ∧ read m e.1 = some ⟨e.2, q⟩ := by
  obtain ⟨r, hA, hr, nx, he, hq⟩ := Seg_append.mp hs
  rw [Seg_nil] at hq
  subst hq
  subst hr
  exact ⟨hA, he⟩

theorem Seg_set_last {m : Mem T} {A : List (Nat × T)} {e : Nat × T} {p q : Option Nat}
    (hs : Seg m p (A ++ [e]) q) (hnd : (addrs (A ++ [e])).Nodup) (q' : Option Nat) :
    Seg (m.set e.1 (some (Node.mk e.2 q'))) p (A ++ [e]) q' := by
  obtain ⟨hA, he⟩ := Seg_last_read hs
  rw [addrs_append, List.nodup_append] at hnd
  obtain ⟨_, _, hdisj⟩ := hnd
  refine Seg_append.mpr ⟨some e.1, Seg_congr ?_ hA, rfl, q', ?_, rfl⟩
  · intro d hd
    have h1 : e.1 ≠ d.1 := fun h => hdisj (mem_addrs hd) (by rw [← h]; simp [addrs])
    rw [read_set_other _ h1]
  · rw [read_set_same _ (read_lt he)]

theorem Seg_head {m : Mem T} {cs : List (Nat × T)} {p q : Option Nat}
    (hs : Seg m p cs q) (hne : cs ≠ []) : p = cs.head?.map Prod.fst := by
  cases cs with
  | nil => exact absurd rfl hne
  | cons c cs => exact hs.1

theorem Seg_head_chain {m : Mem T} {cs : List (Nat × T)} {p : Option Nat}
    (hs : Seg m p cs none) : p = cs.head?.map Prod.fst := by
  cases cs with
  | nil => exact hs
  | cons c cs => exact hs.1

/-! ## invert -/

theorem invertRest_chain (cs : List (Nat × T)) :
    ∀ (c : Nat × T) (l : LinkedList T) (fuel : Nat),
      Seg l.mem (some c.1) (c :: cs) none → (addrs (c :: cs)).Nodup → cs.length + 1 ≤ fuel →
      ∃ l', invertRest fuel l (some c.1) = .ok l' ∧
        l'.item_count_ = l.item_count_ ∧ l'.mem.length = l.mem.length ∧
        (∀ b, b ∉ addrs (c :: cs) → read l'.mem b = read l.mem b) ∧
        Seg l'.mem l'.head_ptr_ (c :: cs).reverse none := by
  induction cs with
  | nil =>
    intro c l fuel hseg _ hfuel
    obtain ⟨f, rfl⟩ : ∃ f, fuel = f + 1 := ⟨fuel - 1, by simp at hfuel; omega⟩
    obtain ⟨_, nx, hc, hnx⟩ := hseg
    rw [Seg_nil] at hnx
    subst hnx
    refine ⟨{ l with head_ptr_ := some c.1 }, ?_, rfl, rfl, fun _ _ => rfl, ?_⟩
    · simp only [invertRest, getNext_ok hc, bind, Except.bind, ne_eq, not_true_eq_false,
        if_false]
      rfl
    · exact ⟨rfl, none, hc, rfl⟩
  | cons d ds ih =>
    intro c l fuel hseg hnd hfuel
    obtain ⟨f, rfl⟩ : ∃ f, fuel = f + 1 := ⟨fuel - 1, by simp at hfuel; omega⟩
    obtain ⟨_, nx, hc, hrest⟩ := hseg
    have hnx : nx = some d.1 := hrest.1
    subst hnx
    rw [addrs_cons, List.nodup_cons] at hnd
    obtain ⟨hcn, hnd'⟩ := hnd
    obtain ⟨l1, he1, hcnt1, hlen1, hframe1, hseg1⟩ :=
      ih d l f hrest hnd' (by simp at hfuel ⊢; omega)
    rw [List.reverse_cons] at hseg1
    have hc1 : read l1.mem c.1 = some ⟨c.2, some d.1⟩ := by
      rw [hframe1 c.1 hcn, hc]
    have hnd1 : (addrs (ds.reverse ++ [d])).Nodup := by
      rw [← List.reverse_cons]
      unfold addrs
      rw [List.map_reverse, List.nodup_reverse]
      exact hnd'
    obtain ⟨_, hd1⟩ := Seg_last_read hseg1
    have hseg2 := Seg_set_last hseg1 hnd1 (some c.1)
    have hcd : d.1 ≠ c.1 := fun h => hcn (by rw [addrs_cons, ← h]; simp)
    have hc2 : read (l1.mem.set d.1 (some (Node.mk d.2 (some c.1)))) c.1 =
        some ⟨c.2, some d.1⟩ := by
      rw [read_set_other _ hcd, hc1]
    refine ⟨{ mem := (l1.mem.set d.1 (some (Node.mk d.2 (some c.1)))).set c.1
                (some (Node.mk c.2 none)),
              head_ptr_ := l1.head_ptr_,
              item_count_ := l1.item_count_ }, ?_, hcnt1, ?_, ?_, ?_⟩
    · simp only [invertRest, getNext_ok hc, bind, Except.bind, ne_eq, reduceCtorEq,
        not_false_eq_true, if_true, he1, getNext_ok hc1, setNext_ok hd1, setNext_ok hc2]
      rfl
    · simp [hlen1]
    · intro b hb
      rw [addrs_cons, List.mem_cons, not_or] at hb
      have hbd : d.1 ≠ b := fun h => hb.2 (by rw [addrs_cons, ← h]; simp)
      show read ((l1.mem.set d.1 _).set c.1 _) b = read l.mem b
      rw [read_set_other _ (Ne.symm hb.1), read_set_other _ hbd, hframe1 b hb.2]
    · show Seg ((l1.mem.set d.1 _).set c.1 _) l1.head_ptr_ (c :: d :: ds).reverse none
      rw [List.reverse_cons, List.reverse_cons]
      refine Seg_append.mpr ⟨some c.1, Seg_congr ?_ hseg2, rfl, none, ?_, rfl⟩
      · intro e he
        have hce : c.1 ≠ e.1 := by
          intro h
          apply hcn
          rw [h]
          have : e ∈ d :: ds := by
            rw [← List.mem_reverse, List.reverse_cons]
            exact he
          exact mem_addrs this
        rw [read_set_other _ hce]
      · rw [read_set_same _ (by rw [List.length_set]; exact read_lt hc1)]

theorem invert_models {l : LinkedList T} {cs : List (Nat × T)} (hM : Models l cs)
    (fuel : Nat) (hfuel : cs.length ≤ fuel) :
    ∃ l', invert fuel l = .ok l' ∧ Models l' cs.reverse ∧
      l'.mem.length = l.mem.length ∧
      (∀ b, b ∉ addrs cs → read l'.mem b = read l.mem b) ∧
      (cs.length ≤ 1 → l' = l) := by
  obtain ⟨hseg, hnd, hcnt⟩ := hM
  by_cases hlen : cs.length ≤ 1
  · have hno : ¬ (l.item_count_ > 1) := by rw [hcnt]; omega
    refine ⟨l, by simp only [invert, if_neg hno]; rfl, ?_, rfl, fun _ _ => rfl, fun _ => rfl⟩
    have hrev : cs.reverse = cs := by
      match cs, hlen with
      | [], _ => rfl
      | [_], _ => rfl
      | _ :: _ :: _, h => simp at h
    rw [hrev]
    exact ⟨hseg, hnd, hcnt⟩
  · have hyes : l.item_count_ > 1 := by rw [hcnt]; omega
    cases cs with
    | nil => simp at hlen
    | cons c cs =>
      have hhead : l.head_ptr_ = some c.1 := hseg.1
      rw [hhead] at hseg
      obtain ⟨l', he, hcnt', hlen', hframe, hseg'⟩ :=
        invertRest_chain cs c l fuel hseg hnd (by simpa using hfuel)
      refine ⟨l', ?_, ⟨hseg', ?_, ?_⟩, hlen', hframe, fun h => absurd h hlen⟩
      · simp only [invert, if_pos hyes, hhead, he]
      · unfold addrs
        rw [List.map_reverse, List.nodup_reverse]
        exact hnd
      · rw [hcnt', hcnt, List.length_reverse]

/-- Two well-formed states with the same chain, the same store size and the same cells
outside the chain are the same state. -/
theorem eq_of_models {l l' : LinkedList T} {cs : List (Nat × T)}
    (hM : Models l cs) (hM' : Models l' cs) (hlen : l'.mem.length = l.mem.length)
    (hframe : ∀ b, b ∉ addrs cs → read l'.mem b = read l.mem b) : l' = l := by
  obtain ⟨hseg, _, hcnt⟩ := hM
  obtain ⟨hseg', _, hcnt'⟩ := hM'
  have hmem : l'.mem = l.mem := by
    apply mem_ext hlen
    intro a
    by_cases ha : a ∈ addrs cs
    · exact Seg_read_eq hseg' hseg a ha
    · exact hframe a ha
  have hhead : l'.head_ptr_ = l.head_ptr_ := by
    rw [Seg_head_chain hseg, Seg_head_chain hseg']
  have hc : l'.item_count_ = l.item_count_ := by rw [hcnt, hcnt']
  cases l
  cases l'
  simp only at hmem hhead hc
  rw [hmem, hhead, hc]

/-- C6: on a well-formed list with chain `cs`, `invert()` (given recursion depth at least the
length) returns, and the new chain is the reverse of `cs`: the cell formerly at position `i`
is at position `length - 1 - i`, the length is unchanged, `head_ptr_` is the former last node,
and when the length is at most 1 the state is unchanged. -/
theorem invert_reverses (l : LinkedList T) (cs : List (Nat × T)) (fuel : Nat)
    (hM : Models l cs) (hfuel : cs.length ≤ fuel) :
    ∃ l', invert fuel l = .ok l' ∧ Models l' cs.reverse ∧
      elems cs.reverse = (elems cs).reverse ∧
      getLength l' = cs.length ∧
      (∀ i, i < cs.length → cs.reverse[cs.length - 1 - i]? = cs[i]?) ∧
      l'.head_ptr_ = cs.getLast?.map Prod.fst ∧
      (cs.length ≤ 1 → l' = l) := by
  obtain ⟨l', he, hm, _, _, hsmall⟩ := invert_models hM fuel hfuel
  refine ⟨l', he, hm, ?_, ?_, ?_, ?_, hsmall⟩
  · simp [elems]
  · rw [getLength, hm.2.2, List.length_reverse]
  · intro i hi
    rw [List.getElem?_reverse (by omega)]
    congr 1
    omega
  · rw [Seg_head_chain hm.1, List.head?_reverse]

/-- C6, the spec's scenario shape: `invert()` on `[10,20,30,40]` gives `[40,30,20,10]` with
the former last node (address 3) as head. -/
theorem invert_reverses_witness :
    Models demo4 demo4Cells ∧ demo4Cells.length ≤ 4 ∧
    ∃ l', invert 4 demo4 = .ok l' ∧ Models l' [(3, 40), (2, 30), (1, 20), (0, 10)] ∧
      getLength l' = 4 ∧ l'.head_ptr_ = some 3 := by
  refine ⟨demo4_models, by decide, ?_⟩
  obtain ⟨l', he, hm, _, hlen, _, hhead, _⟩ :=
    invert_reverses demo4 demo4Cells 4 demo4_models (by decide)
  exact ⟨l', he, hm, hlen, hhead⟩

/-- C8: on a well-formed list of any length (empty and singleton included), `invert()`
applied twice returns both times and ends in exactly the original state, hence the original
element sequence and length. -/
theorem invert_involution (l : LinkedList T) (cs : List (Nat × T)) (fuel1 fuel2 : Nat)
    (hM : Models l cs) (h1 : cs.length ≤ fuel1) (h2 : cs.length ≤ fuel2) :
    ∃ l1, invert fuel1 l = .ok l1 ∧ invert fuel2 l1 = .ok l := by
  obtain ⟨l1, he1, hm1, hlen1, hframe1, _⟩ := invert_models hM fuel1 h1
  obtain ⟨l2, he2, hm2, hlen2, hframe2, _⟩ :=
    invert_models hm1 fuel2 (by rw [List.length_reverse]; exact h2)
  rw [List.reverse_reverse] at hm2
  have hmem : ∀ b, b ∉ addrs cs → b ∉ addrs cs.reverse := by
    intro b hb h
    apply hb
    unfold addrs at h ⊢
    rw [List.map_reverse, List.mem_reverse] at h
    exact h
  have : l2 = l := by
    apply eq_of_models hM hm2 (hlen2.trans hlen1)
    intro b hb
    rw [hframe2 b (hmem b hb), hframe1 b hb]
  rw [this] at he2
  exact ⟨l1, he1, he2⟩

/-- C8 on concrete inputs: inverting `[10,20,30,40]` twice gives back the same state, and so
does inverting the empty list twice. -/
theorem invert_involution_witness :
    (Models demo4 demo4Cells ∧ ∃ l1, invert 4 demo4 = .ok l1 ∧ invert 4 l1 = .ok demo4) ∧
    (∃ l1, invert 0 (LinkedList.default ([] : Mem Nat)) = .ok l1 ∧
      invert 0 l1 = .ok (LinkedList.default [])) :=
  ⟨⟨demo4_models, invert_involution demo4 demo4Cells 4 4 demo4_models (by decide) (by decide)⟩,
   invert_involution (LinkedList.default []) [] 0 0 ⟨rfl, List.nodup_nil, rfl⟩
     (by decide) (by decide)⟩

/-! ## rotate -/

theorem rotate_zero (l : LinkedList T) : rotate l 0 = .ok l := by
  rw [rotate]
  simp only [lt_self_iff_false, if_false, if_true]
  rfl

theorem rotate_succ (l : LinkedList T) (k : Nat) :
    rotate l ((k : Int) + 1) = (rotate l (k : Int)).bind rotateStep := by
  rw [rotate]
  have h1 : ¬ ((k : Int) + 1 < 0) := by omega
  have h2 : ¬ ((k : Int) + 1 = 0) := by omega
  simp only [if_neg h1, if_neg h2, add_sub_cancel_right]
  rfl

theorem rotate_neg (l : LinkedList T) (k : Int) (h : k < 0) :
    rotate l k = .error .assertionFailed := by
  rw [rotate]
  simp only [if_pos h]

theorem rotateStep_models {l : LinkedList T} {A : List (Nat × T)} {c : Nat × T}
    (hM : Models l (A ++ [c])) :
    ∃ l', rotateStep l = .ok l' ∧ Models l' (c :: A) ∧
      l'.mem.length = l.mem.length ∧
      (∀ b, b ∉ addrs (A ++ [c]) → read l'.mem b = read l.mem b) := by
  obtain ⟨hseg, hnd, hcnt⟩ := hM
  obtain ⟨hA, hc⟩ := Seg_last_read hseg
  -- step 1: the last node is linked to the head
  have hseg1 := Seg_set_last hseg hnd l.head_ptr_
  obtain ⟨hA1, hc1⟩ := Seg_last_read hseg1
  have hcyc : Seg (l.mem.set c.1 (some (Node.mk c.2 l.head_ptr_))) (some c.1) (c :: A)
      (some c.1) := ⟨rfl, l.head_ptr_, hc1, hA1⟩
  have hndc : (addrs (c :: A)).Nodup := by
    rw [addrs_append, List.nodup_append_comm] at hnd
    exact hnd
  -- step 3 walks the cycle from the new head to the new last node
  obtain ⟨A', e, hsplit⟩ : ∃ A' e, c :: A = A' ++ [e] :=
    ⟨(c :: A).dropLast, (c :: A).getLast (List.cons_ne_nil _ _),
      (List.dropLast_append_getLast _).symm⟩
  have hlenA' : A'.length = A.length := by
    have := congrArg List.length hsplit
    simp at this
    omega
  rw [hsplit] at hcyc hndc
  obtain ⟨hA', he⟩ := Seg_last_read hcyc
  have hfin := Seg_set_last hcyc hndc none
  rw [← hsplit] at hfin
  have hcount : l.item_count_ - 1 = (A.length : Int) := by
    rw [hcnt, List.length_append]
    simp
  refine ⟨{ mem := (l.mem.set c.1 (some (Node.mk c.2 l.head_ptr_))).set e.1
              (some (Node.mk e.2 none)),
            head_ptr_ := some c.1,
            item_count_ := l.item_count_ }, ?_, ⟨hfin, ?_, ?_⟩, ?_, ?_⟩
  · have w1 := getNodeAtLoop_seg hA
    have w2 := getNodeAtLoop_seg hA1
    have w3 := getNodeAtLoop_seg hA'
    rw [hlenA'] at w3
    simp only [rotateStep, getNodeAt, hcount, Int.toNat_ofNat, w1, bind, Except.bind,
      setNext_ok hc, w2, w3, setNext_ok he]
    rfl
  · rw [hsplit]; exact hndc
  · rw [hcnt]; simp
  · simp
  · intro b hb
    have hbc : c.1 ≠ b := fun h => hb (by rw [addrs_append, ← h]; simp [addrs])
    have hbe : e.1 ≠ b := by
      intro h
      apply hb
      have hmem : e ∈ c :: A := by rw [hsplit]; simp
      rw [← h, addrs_append]
      rcases List.mem_cons.mp hmem with h' | h'
      · rw [h']; simp [addrs]
      · exact List.mem_append_left _ (mem_addrs h')
    show read ((l.mem.set c.1 _).set e.1 _) b = read l.mem b
    rw [read_set_other _ hbe, read_set_other _ hbc]

theorem rotR1_append_singleton {α : Type} (A : List α) (c : α) : rotR1 (A ++ [c]) = c :: A := by
  simp [rotR1]

theorem rotR1_length {α : Type} (xs : List α) : (rotR1 xs).length = xs.length := by
  rcases List.eq_nil_or_concat xs with rfl | ⟨A, c, rfl⟩
  · rfl
  · rw [List.concat_eq_append, rotR1_append_singleton]
    simp

theorem rotR_length {α : Type} (k : Nat) (xs : List α) : (rotR k xs).length = xs.length := by
  induction k with
  | zero => rfl
  | succ k ih => rw [rotR, rotR1_length, ih]

theorem rotR1_addrs_mem (xs : List (Nat × T)) (b : Nat) :
    b ∈ addrs (rotR1 xs) ↔ b ∈ addrs xs := by
  rcases List.eq_nil_or_concat xs with rfl | ⟨A, c, rfl⟩
  · rfl
  · rw [List.concat_eq_append, rotR1_append_singleton, addrs_append, addrs_cons]
    simp [addrs]
    tauto

theorem rotR_addrs_mem (k : Nat) (xs : List (Nat × T)) (b : Nat) :
    b ∈ addrs (rotR k xs) ↔ b ∈ addrs xs := by
  induction k with
  | zero => rfl
  | succ k ih => rw [rotR, rotR1_addrs_mem, ih]

theorem rotate_models {l : LinkedList T} {cs : List (Nat × T)} (hM : Models l cs)
    (hne : cs ≠ []) (k : Nat) :
    ∃ l', rotate l (k : Int) = .ok l' ∧ Models l' (rotR k cs) ∧
      l'.mem.length = l.mem.length ∧
      (∀ b, b ∉ addrs cs → read l'.mem b = read l.mem b) := by
  induction k with
  | zero => exact ⟨l, rotate_zero l, hM, rfl, fun _ _ => rfl⟩
  | succ k ih =>
    obtain ⟨l1, he1, hm1, hlen1, hframe1⟩ := ih
    have hne1 : rotR k cs ≠ [] := by
      intro h
      have := rotR_length k cs
      rw [h] at this
      exact hne (List.length_eq_zero.mp this.symm)
    rcases List.eq_nil_or_concat (rotR k cs) with h | ⟨A, c, hAc⟩
    · exact absurd h hne1
    · rw [List.concat_eq_append] at hAc
      rw [hAc] at hm1
      obtain ⟨l2, he2, hm2, hlen2, hframe2⟩ := rotateStep_models hm1
      refine ⟨l2, ?_, ?_, hlen2.trans hlen1, ?_⟩
      · rw [Nat.cast_succ, rotate_succ, he1]
        exact he2
      · rw [rotR, hAc, rotR1_append_singleton]
        exact hm2
      · intro b hb
        rw [hframe2 b (by rw [← hAc, rotR_addrs_mem]; exact hb), hframe1 b hb]

theorem rotR1_getElem? {α : Type} (ys : List α) (j : Nat) (hj : j < ys.length) :
    (rotR1 ys)[(j + 1) % ys.length]? = ys[j]? := by
  rcases List.eq_nil_or_concat ys with rfl | ⟨A, c, rfl⟩
  · simp at hj
  · rw [List.concat_eq_append] at hj ⊢
    rw [rotR1_append_singleton]
    rw [List.length_append, List.length_singleton] at hj ⊢
    by_cases hlast : j = A.length
    · subst hlast
      rw [Nat.mod_self, List.getElem?_append_right (le_refl _)]
      simp
    · have hlt : j < A.length := by omega
      rw [Nat.mod_eq_of_lt (by omega), List.getElem?_cons_succ,
        List.getElem?_append_left hlt]

theorem rotR_getElem? {α : Type} (cs : List α) (k i : Nat) (hi : i < cs.length) :
    (rotR k cs)[(i + k) % cs.length]? = cs[i]? := by
  induction k with
  | zero => rw [Nat.add_zero, Nat.mod_eq_of_lt hi]; rfl
  | succ k ih =>
    have hpos : 0 < cs.length := by omega
    have hj : (i + k) % cs.length < (rotR k cs).length := by
      rw [rotR_length]
      exact Nat.mod_lt _ hpos
    have hstep := rotR1_getElem? (rotR k cs) ((i + k) % cs.length) hj
    rw [rotR_length] at hstep
    have hmod : (i + (k + 1)) % cs.length = ((i + k) % cs.length + 1) % cs.length := by
      rw [← Nat.add_assoc, Nat.add_mod (i + k) 1, Nat.add_mod ((i + k) % cs.length) 1,
        Nat.mod_mod]
    rw [rotR, hmod, hstep, ih]

theorem rotR_length_self {α : Type} (cs : List α) : rotR cs.length cs = cs := by
  apply List.ext_getElem?
  intro i
  by_cases hi : i < cs.length
  · have := rotR_getElem? cs cs.length i hi
    rw [Nat.add_mod_right, Nat.mod_eq_of_lt hi] at this
    exact this
  · rw [List.getElem?_eq_none (by rw [rotR_length]; omega),
      List.getElem?_eq_none (by omega)]

/-- C7: on a well-formed non-empty list with chain `cs` and for `k ≥ 0`, `rotate(k)` returns,
the length is unchanged, and the cell (hence the element) formerly at position `i` is at
position `(i + k) mod length`. -/
theorem rotate_right (l : LinkedList T) (cs : List (Nat × T)) (k : Int)
    (hM : Models l cs) (hne : cs ≠ []) (hk : 0 ≤ k) :
    ∃ l' cs', rotate l k = .ok l' ∧ Models l' cs' ∧
      getLength l' = cs.length ∧ cs'.length = cs.length ∧
      (∀ i, i < cs.length → cs'[(i + k.toNat) % cs.length]? = cs[i]?) ∧
      (∀ i, i < cs.length → (elems cs')[(i + k.toNat) % cs.length]? = (elems cs)[i]?) := by
  obtain ⟨n, rfl⟩ := Int.eq_ofNat_of_zero_le hk
  obtain ⟨l', he, hm, _, _⟩ := rotate_models hM hne n
  rw [Int.toNat_ofNat]
  refine ⟨l', rotR n cs, he, hm, ?_, rotR_length n cs, fun i hi => rotR_getElem? cs n i hi, ?_⟩
  · rw [getLength, hm.2.2, rotR_length]
  · intro i hi
    unfold elems
    rw [List.getElem?_map, List.getElem?_map, rotR_getElem? cs n i hi]

/-- C7, the spec's scenario shape: `rotate(1)` on `[10,20,30,40]` gives `[40,10,20,30]`. -/
theorem rotate_right_witness :
    Models demo4 demo4Cells ∧ demo4Cells ≠ [] ∧ (0 : Int) ≤ 1 ∧
    ∃ l' cs', rotate demo4 1 = .ok l' ∧ Models l' cs' ∧ getLength l' = 4 ∧
      elems cs' = [40, 10, 20, 30] := by
  refine ⟨demo4_models, by decide, by decide, ?_⟩
  obtain ⟨l', cs', he, hm, hlen, hl, _, hpos⟩ :=
    rotate_right demo4 demo4Cells 1 demo4_models (by decide) (by decide)
  refine ⟨l', cs', he, hm, hlen, ?_⟩
  apply List.ext_getElem?
  intro j
  have h0 := hpos 0 (by decide)
  have h1 := hpos 1 (by decide)
  have h2 := hpos 2 (by decide)
  have h3 := hpos 3 (by decide)
  match j with
  | 0 => exact h3
  | 1 => exact h0
  | 2 => exact h1
  | 3 => exact h2
  | j + 4 =>
    rw [List.getElem?_eq_none (by simp [elems, hl, demo4Cells])]
    rfl

/-- C9: `rotate(0)` returns any state whatsoever unchanged (the empty list included), and on
a well-formed list of length `n > 0`, `rotate(n)` returns exactly the original state, hence
the original element sequence. -/
theorem rotate_zero_and_full (l : LinkedList T) (cs : List (Nat × T))
    (hM : Models l cs) (hne : cs ≠ []) :
    (∀ l0 : LinkedList T, rotate l0 0 = .ok l0) ∧
    rotate l (cs.length : Int) = .ok l := by
  refine ⟨rotate_zero, ?_⟩
  obtain ⟨l', he, hm, hlen, hframe⟩ := rotate_models hM hne cs.length
  rw [rotR_length_self] at hm
  have : l' = l := eq_of_models hM hm hlen hframe
  rw [this] at he
  exact he

/-- C9 on concrete inputs: `rotate(4)` on `[10,20,30,40]` gives back the same state, and
`rotate(0)` leaves the empty list as it is. -/
theorem rotate_zero_and_full_witness :
    Models demo4 demo4Cells ∧ demo4Cells ≠ [] ∧ rotate demo4 4 = .ok demo4 ∧
    rotate (LinkedList.default ([] : Mem Nat)) 0 = .ok (LinkedList.default []) :=
  ⟨demo4_models, by decide,
    (rotate_zero_and_full demo4 demo4Cells demo4_models (by decide)).2,
    (rotate_zero_and_full demo4 demo4Cells demo4_models (by decide)).1 _⟩

theorem rotR_singleton {α : Type} (k : Nat) (c : α) : rotR k [c] = [c] := by
  induction k with
  | zero => rfl
  | succ k ih => rw [rotR, ih]; rfl

/-- On a well-formed one-element list `rotate(k)` with `k ≥ 0` returns the state unchanged. -/
theorem rotate_singleton {l : LinkedList T} {c : Nat × T} (hM : Models l [c]) (k : Nat) :
    rotate l (k : Int) = .ok l := by
  obtain ⟨l', he, hm, hlen, hframe⟩ := rotate_models hM (List.cons_ne_nil _ _) k
  rw [rotR_singleton] at hm
  have : l' = l := eq_of_models hM hm hlen hframe
  rw [this] at he
  exact he

theorem rotateStep_empty (m : Mem T) :
    rotateStep (LinkedList.default m) = .error .nullDeref := rfl

/-- C10, where the code departs from it: on the default-constructed (empty) list, in any
store, `rotate(k)` with `k ≥ 1` does not complete: the first relinking statement calls
`setNext` through `getNodeAt(-1)`, which is `head_ptr_`, a null pointer. -/
theorem rotate_empty_null_deref (m : Mem T) (k : Nat) :
    rotate (LinkedList.default m) ((k : Int) + 1) = .error .nullDeref := by
  induction k with
  | zero =>
    rw [rotate_succ, Nat.cast_zero, rotate_zero]
    exact rotateStep_empty m
  | succ k ih =>
    rw [rotate_succ, Nat.cast_succ, ih]
    rfl

/-! ## insert and remove at any valid position, with their footprint -/

theorem insert_models_full {l : LinkedList T} {cs : List (Nat × T)} (hM : Models l cs)
    (k : Nat) (hk : k ≤ cs.length) (v : T) :
    ∃ l', insert l (k : Int) v = .ok (true, l') ∧
      Models l' (cs.take k ++ (l.mem.length, v) :: cs.drop k) ∧
      l'.mem.length = l.mem.length + 1 ∧
      (∀ b, b < l.mem.length → b ∉ addrs cs → read l'.mem b = read l.mem b) := by
  cases k with
  | zero =>
    obtain ⟨l', he, hm, hlen, hframe⟩ := insert_front_full hM v
    exact ⟨l', by simpa using he, by simpa using hm, hlen, fun b hb _ => hframe b hb⟩
  | succ j =>
    have hj : j < cs.length := by omega
    have hsplit : cs = cs.take j ++ cs[j] :: cs.drop (j + 1) := by
      rw [List.getElem_cons_drop, List.take_append_drop]
    have hM' : Models l (cs.take j ++ cs[j] :: cs.drop (j + 1)) := by
      rw [← hsplit]; exact hM
    obtain ⟨l', he, hm, hlen, hframe⟩ := insert_after_full hM' v
    rw [List.length_take, Nat.min_eq_left (le_of_lt hj)] at he
    rw [← hsplit] at hframe
    refine ⟨l', by exact_mod_cast he, ?_, hlen, hframe⟩
    have ht : cs.take (j + 1) = cs.take j ++ [cs[j]] := by
      rw [List.take_succ, List.getElem?_eq_getElem hj]; rfl
    rw [ht, List.append_assoc]
    exact hm

theorem remove_models_full {l : LinkedList T} {cs : List (Nat × T)} (hM : Models l cs)
    (k : Nat) (hk : k < cs.length) :
    ∃ l', remove l (k : Int) = .ok (true, l') ∧ Models l' (cs.eraseIdx k) ∧
      l'.mem.length = l.mem.length ∧
      (∀ b, b ∉ addrs cs → read l'.mem b = read l.mem b) := by
  cases k with
  | zero =>
    cases cs with
    | nil => simp at hk
    | cons d B =>
      obtain ⟨l', he, hm, hlen, hframe, _⟩ := remove_front_full hM
      exact ⟨l', by simpa using he, by simpa using hm, hlen, hframe⟩
  | succ j =>
    have hj : j < cs.length := by omega
    have hsplit : cs = cs.take j ++ cs[j] :: cs[j + 1] :: cs.drop (j + 1 + 1) := by
      rw [List.getElem_cons_drop, List.getElem_cons_drop, List.take_append_drop]
    have hM' : Models l (cs.take j ++ cs[j] :: cs[j + 1] :: cs.drop (j + 1 + 1)) := by
      rw [← hsplit]; exact hM
    obtain ⟨l', he, hm, hlen, hframe⟩ := remove_after_full hM'
    rw [List.length_take, Nat.min_eq_left (le_of_lt hj)] at he
    rw [← hsplit] at hframe
    refine ⟨l', by exact_mod_cast he, ?_, hlen, hframe⟩
    have ht : cs.take (j + 1) = cs.take j ++ [cs[j]] := by
      rw [List.take_succ, List.getElem?_eq_getElem hj]; rfl
    rw [List.eraseIdx_eq_take_drop_succ, ht, List.append_assoc]
    exact hm

theorem getEntry_models {l : LinkedList T} {cs : List (Nat × T)} (hM : Models l cs)
    (k : Nat) (hk : k < cs.length) : getEntry l (k : Int) = .ok cs[k].2 := by
  obtain ⟨hseg, _, hcnt⟩ := hM
  obtain ⟨nx, hr⟩ := Seg_live hseg cs[k] (List.getElem_mem hk)
  have hrange : (k : Int) ≥ 0 ∧ (k : Int) < l.item_count_ := by
    rw [hcnt]; omega
  simp only [getEntry, if_pos hrange, getNodeAt, Int.toNat_ofNat,
    getNodeAtLoop_chain hseg k hk, bind, Except.bind, getItem_ok hr]

theorem eraseIdx_insertAt {α : Type} (xs : List α) (k : Nat) (x : α) (hk : k ≤ xs.length) :
    (xs.take k ++ x :: xs.drop k).eraseIdx k = xs := by
  rw [List.eraseIdx_append_of_length_le (by rw [List.length_take]; omega),
    List.length_take, Nat.min_eq_left hk, Nat.sub_self]
  simp

/-- C16: on a well-formed list and for `0 ≤ p ≤ length`, `insert(p, v)` returns true and an
immediate `getEntry(p)` on the resulting list does not raise and returns `v`. -/
theorem insert_then_getEntry (l : LinkedList T) (cs : List (Nat × T)) (p : Int) (v : T)
    (hM : Models l cs) (h0 : 0 ≤ p) (h1 : p ≤ cs.length) :
    ∃ l', insert l p v = .ok (true, l') ∧ getEntry l' p = .ok v := by
  obtain ⟨k, rfl⟩ := Int.eq_ofNat_of_zero_le h0
  have hk : k ≤ cs.length := by omega
  obtain ⟨l', he, hm, _, _⟩ := insert_models_full hM k hk v
  have hlen : k < (cs.take k ++ (l.mem.length, v) :: cs.drop k).length := by
    rw [List.length_append, List.length_cons, List.length_take, Nat.min_eq_left hk]
    omega
  refine ⟨l', he, ?_⟩
  rw [getEntry_models hm k hlen]
  have hat := getElem?_insertAt_at cs k (l.mem.length, v) hk
  rw [List.getElem?_eq_getElem hlen] at hat
  rw [Option.some.inj hat]

/-- C16 on concrete inputs: after `insert(2, 99)` on `[10,20,30,40]`, `getEntry(2)` is 99;
the same at the end of the list, `insert(4, 99)` then `getEntry(4)`. -/
theorem insert_then_getEntry_witness :
    Models demo4 demo4Cells ∧
    (∃ l', insert demo4 2 99 = .ok (true, l') ∧ getEntry l' 2 = .ok 99) ∧
    (∃ l', insert demo4 4 99 = .ok (true, l') ∧ getEntry l' 4 = .ok 99) :=
  ⟨demo4_models,
    insert_then_getEntry demo4 demo4Cells 2 99 demo4_models (by decide) (by decide),
    insert_then_getEntry demo4 demo4Cells 4 99 demo4_models (by decide) (by decide)⟩

/-- C19: on a well-formed list with chain `cs` and for `0 ≤ p ≤ length`, `insert(p, v)`
followed by `remove(p)` both return true and leave a well-formed list with exactly the chain
`cs`, hence the element sequence and the length of the original. -/
theorem insert_then_remove (l : LinkedList T) (cs : List (Nat × T)) (p : Int) (v : T)
    (hM : Models l cs) (h0 : 0 ≤ p) (h1 : p ≤ cs.length) :
    ∃ l1 l2, insert l p v = .ok (true, l1) ∧ remove l1 p = .ok (true, l2) ∧
      Models l2 cs ∧ getLength l2 = getLength l ∧ l2.head_ptr_ = l.head_ptr_ := by
  obtain ⟨k, rfl⟩ := Int.eq_ofNat_of_zero_le h0
  have hk : k ≤ cs.length := by omega
  obtain ⟨l1, he1, hm1, _, _⟩ := insert_models_full hM k hk v
  have hlen : k < (cs.take k ++ (l.mem.length, v) :: cs.drop k).length := by
    rw [List.length_append, List.length_cons, List.length_take, Nat.min_eq_left hk]
    omega
  obtain ⟨l2, he2, hm2, _, _⟩ := remove_models_full hm1 k hlen
  rw [eraseIdx_insertAt cs k _ hk] at hm2
  refine ⟨l1, l2, he1, he2, hm2, ?_, ?_⟩
  · rw [getLength, getLength, hm2.2.2, hM.2.2]
  · rw [Seg_head_chain hm2.1, Seg_head_chain hM.1]

/-- C19 on concrete inputs: `insert(2, 99)` then `remove(2)` on `[10,20,30,40]`. -/
theorem insert_then_remove_witness :
    Models demo4 demo4Cells ∧
    ∃ l1 l2, insert demo4 2 99 = .ok (true, l1) ∧ remove l1 2 = .ok (true, l2) ∧
      Models l2 demo4Cells ∧ getLength l2 = 4 := by
  refine ⟨demo4_models, ?_⟩
  obtain ⟨l1, l2, he1, he2, hm, hlen, _⟩ :=
    insert_then_remove demo4 demo4Cells 2 99 demo4_models (by decide) (by decide)
  exact ⟨l1, l2, he1, he2, hm, hlen⟩

/-! ## Sequences of insert and remove calls -/

theorem applyOp_models {l : LinkedList T} {cs : List (Nat × T)} (hM : Models l cs)
    (op : Op T) :
    ∃ l' cs', applyOp l op = .ok l' ∧ Models l' cs' ∧
      l.mem.length ≤ l'.mem.length ∧
      (∀ b, b < l.mem.length → b ∉ addrs cs → read l'.mem b = read l.mem b) ∧
      (∀ b, b ∈ addrs cs' → b ∈ addrs cs ∨ l.mem.length ≤ b) := by
  cases op with
  | insert p v =>
    by_cases hin : p ≥ 0 ∧ p ≤ cs.length
    · obtain ⟨k, rfl⟩ := Int.eq_ofNat_of_zero_le hin.1
      have hk : k ≤ cs.length := by omega
      obtain ⟨l', he, hm, hlen, hframe⟩ := insert_models_full hM k hk v
      refine ⟨l', _, ?_, hm, by omega, hframe, ?_⟩
      · simp only [applyOp, he]
      · intro b hb
        rw [addrs_append, addrs_cons, List.mem_append, List.mem_cons] at hb
        rcases hb with hb | hb | hb
        · obtain ⟨c, hc, rfl⟩ := List.mem_map.mp hb
          exact Or.inl (mem_addrs (List.mem_of_mem_take hc))
        · exact Or.inr (by simp at hb; omega)
        · obtain ⟨c, hc, rfl⟩ := List.mem_map.mp hb
          exact Or.inl (mem_addrs (List.mem_of_mem_drop hc))
    · have hrange : ¬ (p ≥ 0 ∧ p ≤ l.item_count_) := by rw [hM.2.2]; exact hin
      refine ⟨l, cs, ?_, hM, le_refl _, fun _ _ _ => rfl, fun _ hb => Or.inl hb⟩
      simp only [applyOp, insert, if_neg hrange]
      rfl
  | remove p =>
    by_cases hin : p ≥ 0 ∧ p < cs.length
    · obtain ⟨k, rfl⟩ := Int.eq_ofNat_of_zero_le hin.1
      have hk : k < cs.length := by omega
      obtain ⟨l', he, hm, hlen, hframe⟩ := remove_models_full hM k hk
      refine ⟨l', _, ?_, hm, by omega, fun b _ hb => hframe b hb, ?_⟩
      · simp only [applyOp, he]
      · intro b hb
        obtain ⟨c, hc, rfl⟩ := List.mem_map.mp hb
        exact Or.inl (mem_addrs (List.mem_of_mem_eraseIdx hc))
    · have hrange : ¬ (p ≥ 0 ∧ p < l.item_count_) := by rw [hM.2.2]; exact hin
      refine ⟨l, cs, ?_, hM, le_refl _, fun _ _ _ => rfl, fun _ hb => Or.inl hb⟩
      simp only [applyOp, remove, if_neg hrange]
      rfl

theorem run_models (ops : List (Op T)) :
    ∀ (l : LinkedList T) (cs : List (Nat × T)), Models l cs →
    ∃ l' cs', run ops l = .ok l' ∧ Models l' cs' ∧
      l.mem.length ≤ l'.mem.length ∧
      (∀ b, b < l.mem.length → b ∉ addrs cs → read l'.mem b = read l.mem b) ∧
      (∀ b, b ∈ addrs cs' → b ∈ addrs cs ∨ l.mem.length ≤ b) := by
  induction ops with
  | nil =>
    intro l cs hM
    exact ⟨l, cs, rfl, hM, le_refl _, fun _ _ _ => rfl, fun _ hb => Or.inl hb⟩
  | cons op ops ih =>
    intro l cs hM
    obtain ⟨l1, cs1, he1, hm1, hlen1, hframe1, hsub1⟩ := applyOp_models hM op
    obtain ⟨l', cs', he, hm, hlen, hframe, hsub⟩ := ih l1 cs1 hm1
    refine ⟨l', cs', ?_, hm, le_trans hlen1 hlen, ?_, ?_⟩
    · simp only [run, he1, he]
    · intro b hb hnot
      have hnot1 : b ∉ addrs cs1 := by
        intro h
        rcases hsub1 b h with h' | h'
        · exact hnot h'
        · omega
      rw [hframe b (by omega) hnot1, hframe1 b hb hnot]
    · intro b hb
      rcases hsub b hb with h | h
      · exact hsub1 b h
      · exact Or.inr (by omega)

theorem Models_head_none_iff {l : LinkedList T} {cs : List (Nat × T)} (hM : Models l cs) :
    l.head_ptr_ = none ↔ l.item_count_ = 0 := by
  obtain ⟨hseg, _, hcnt⟩ := hM
  cases cs with
  | nil =>
    rw [Seg_nil] at hseg
    simp [hseg, hcnt]
  | cons c cs =>
    rw [hseg.1, hcnt]
    simp
    omega

/-- C11: starting from a default-constructed list (in any store), every finite sequence of
`insert` and `remove` calls with arbitrary integer positions runs to completion and leaves a
well-formed list: `getLength()` is the number of cells of the chain from `head_ptr_`, the
traversal from `head_ptr_` is at a node after fewer than `getLength()` links and at `nullptr`
after exactly `getLength()` links, and `head_ptr_` is `nullptr` exactly when the length
is 0. -/
theorem reachable_invariant (m : Mem T) (ops : List (Op T)) :
    ∃ l cs, run ops (LinkedList.default m) = .ok l ∧ Models l cs ∧
      getLength l = cs.length ∧
      (∀ k, k < cs.length → ∃ a, getNodeAtLoop l.mem k l.head_ptr_ = .ok (some a)) ∧
      getNodeAtLoop l.mem cs.length l.head_ptr_ = .ok none ∧
      (l.head_ptr_ = none ↔ getLength l = 0) := by
  have h0 : Models (LinkedList.default m) ([] : List (Nat × T)) :=
    ⟨rfl, List.nodup_nil, rfl⟩
  obtain ⟨l, cs, he, hm, _, _, _⟩ := run_models ops _ _ h0
  refine ⟨l, cs, he, hm, hm.2.2, ?_, getNodeAtLoop_seg hm.1, Models_head_none_iff hm⟩
  intro k hk
  exact ⟨_, getNodeAtLoop_chain hm.1 k hk⟩

/-! ## Structure preserved by invert and rotate -/

theorem Seg_last_none {m : Mem T} {cs : List (Nat × T)} {p : Option Nat} {e : Nat × T}
    (hs : Seg m p cs none) (he : cs.getLast? = some e) :
    read m e.1 = some ⟨e.2, none⟩ := by
  obtain ⟨ys, rfl⟩ := List.getLast?_eq_some_iff.mp he
  exact (Seg_last_read hs).2

theorem rotR1_perm {α : Type} (xs : List α) : (rotR1 xs).Perm xs := by
  rcases List.eq_nil_or_concat xs with rfl | ⟨A, c, rfl⟩
  · exact List.Perm.refl _
  · rw [List.concat_eq_append, rotR1_append_singleton]
    exact (List.perm_append_singleton c A).symm

theorem rotR_perm {α : Type} (k : Nat) (xs : List α) : (rotR k xs).Perm xs := by
  induction k with
  | zero => exact List.Perm.refl _
  | succ k ih => exact (rotR1_perm _).trans ih

/-- C12: on a well-formed list, `invert()` (with recursion depth at least the length) and, if
the list is non-empty, `rotate(k)` for `k ≥ 0` return a well-formed list (chain from
`head_ptr_` ending in `nullptr`, no cell visited twice, counter equal to the number of cells)
whose cells are a permutation of the original cells, so that no node is lost or duplicated;
the counter and the store size are unchanged, cells outside the chain are untouched, and the
last cell's successor is `nullptr`, so no cycle is left behind. -/
theorem structure_preserved (l : LinkedList T) (cs : List (Nat × T)) (hM : Models l cs) :
    (∀ fuel, cs.length ≤ fuel →
      ∃ l' cs', invert fuel l = .ok l' ∧ Models l' cs' ∧ cs'.Perm cs ∧
        l'.item_count_ = l.item_count_ ∧ l'.mem.length = l.mem.length ∧
        (∀ b, b ∉ addrs cs → read l'.mem b = read l.mem b) ∧
        (∀ e, cs'.getLast? = some e → read l'.mem e.1 = some ⟨e.2, none⟩)) ∧
    (cs ≠ [] → ∀ k : Int, 0 ≤ k →
      ∃ l' cs', rotate l k = .ok l' ∧ Models l' cs' ∧ cs'.Perm cs ∧
        l'.item_count_ = l.item_count_ ∧ l'.mem.length = l.mem.length ∧
        (∀ b, b ∉ addrs cs → read l'.mem b = read l.mem b) ∧
        (∀ e, cs'.getLast? = some e → read l'.mem e.1 = some ⟨e.2, none⟩)) := by
  constructor
  · intro fuel hfuel
    obtain ⟨l', he, hm, hlen, hframe, _⟩ := invert_models hM fuel hfuel
    refine ⟨l', cs.reverse, he, hm, List.reverse_perm cs, ?_, hlen, hframe,
      fun e h => Seg_last_none hm.1 h⟩
    rw [hm.2.2, hM.2.2, List.length_reverse]
  · intro hne k hk
    obtain ⟨n, rfl⟩ := Int.eq_ofNat_of_zero_le hk
    obtain ⟨l', he, hm, hlen, hframe⟩ := rotate_models hM hne n
    refine ⟨l', rotR n cs, he, hm, rotR_perm n cs, ?_, hlen, hframe,
      fun e h => Seg_last_none hm.1 h⟩
    rw [hm.2.2, hM.2.2, rotR_length]

/-- C12 on concrete inputs: `invert()` and `rotate(3)` on `[10,20,30,40]`. -/
theorem structure_preserved_witness :
    Models demo4 demo4Cells ∧
    (∃ l' cs', invert 4 demo4 = .ok l' ∧ Models l' cs' ∧ cs'.Perm demo4Cells ∧
      l'.item_count_ = 4) ∧
    (∃ l' cs', rotate demo4 3 = .ok l' ∧ Models l' cs' ∧ cs'.Perm demo4Cells ∧
      l'.item_count_ = 4) := by
  refine ⟨demo4_models, ?_, ?_⟩
  · obtain ⟨l', cs', he, hm, hp, hc, _⟩ :=
      (structure_preserved demo4 demo4Cells demo4_models).1 4 (by decide)
    exact ⟨l', cs', he, hm, hp, hc⟩
  · obtain ⟨l', cs', he, hm, hp, hc, _⟩ :=
      (structure_preserved demo4 demo4Cells demo4_models).2 (by decide) 3 (by decide)
    exact ⟨l', cs', he, hm, hp, hc⟩

/-! ## clear -/

theorem clear_models (cs : List (Nat × T)) :
    ∀ (l : LinkedList T) (fuel : Nat), Models l cs → cs.length + 1 ≤ fuel →
    ∃ l', clear fuel l = .ok (l', cs.length) ∧
      removeHeadTimes cs.length l = some l' ∧ Models l' [] ∧
      l'.mem.length = l.mem.length ∧
      (∀ b, b ∉ addrs cs → read l'.mem b = read l.mem b) ∧
      (∀ b, b ∈ addrs cs → read l'.mem b = none) := by
  induction cs with
  | nil =>
    intro l fuel hM hfuel
    obtain ⟨f, rfl⟩ : ∃ f, fuel = f + 1 := ⟨fuel - 1, by omega⟩
    have hemp : isEmpty l = true := by
      simp [isEmpty, hM.2.2]
    refine ⟨l, ?_, rfl, hM, rfl, fun _ _ => rfl, ?_⟩
    · simp only [clear, hemp]
      rfl
    · intro b hb
      cases hb
  | cons d B ih =>
    intro l fuel hM hfuel
    obtain ⟨f, rfl⟩ : ∃ f, fuel = f + 1 := ⟨fuel - 1, by omega⟩
    have hemp : isEmpty l = false := by
      simp [isEmpty, hM.2.2]
      omega
    have hdB : d.1 ∉ addrs B := by
      have := hM.2.1
      rw [addrs_cons, List.nodup_cons] at this
      exact this.1
    obtain ⟨l1, he1, hm1, hlen1, hframe1, hfree1⟩ := remove_front_full hM
    obtain ⟨l', he, hrm, hm, hlen, hframe, hfree⟩ :=
      ih l1 f hm1 (by simp at hfuel ⊢; omega)
    refine ⟨l', ?_, ?_, hm, hlen.trans hlen1, ?_, ?_⟩
    · simp only [clear, hemp, he1, he, bind, Except.bind]
      rfl
    · simp only [List.length_cons, removeHeadTimes, he1]
      exact hrm
    · intro b hb
      have hbB : b ∉ addrs B := fun h => hb (by rw [addrs_cons]; exact List.mem_cons_of_mem _ h)
      rw [hframe b hbB, hframe1 b hb]
    · intro b hb
      rw [addrs_cons, List.mem_cons] at hb
      rcases hb with rfl | hb
      · rw [hframe _ hdB, hfree1]
      · exact hfree b hb

theorem remove_empty_refuses {l : LinkedList T} (hM : Models l []) :
    remove l 0 = .ok (false, l) := by
  have hrange : ¬ ((0 : Int) ≥ 0 ∧ (0 : Int) < l.item_count_) := by
    rw [hM.2.2]
    simp
  simp only [remove, if_neg hrange]
  rfl

/-- C14: on a well-formed list with chain `cs` of length `n`, `clear()` (allowed at least
`n + 1` evaluations of its loop condition) returns, and what it returns is exactly the state
reached by `n` consecutive calls of `remove(0)` that all return true, `n` being also the
number of such calls the loop counted; on that state one more `remove(0)` returns false.  The
result is the empty list (`getLength()` is 0, `isEmpty()` is true, `head_ptr_` is `nullptr`),
every cell of the original chain has been released, the store has kept its size and the cells
outside the chain are untouched. -/
theorem clear_empties (l : LinkedList T) (cs : List (Nat × T)) (fuel : Nat)
    (hM : Models l cs) (hfuel : cs.length + 1 ≤ fuel) :
    ∃ l', clear fuel l = .ok (l', cs.length) ∧
      removeHeadTimes cs.length l = some l' ∧
      remove l' 0 = .ok (false, l') ∧
      removeHeadTimes (cs.length + 1) l = none ∧
      getLength l' = 0 ∧ isEmpty l' = true ∧ l'.head_ptr_ = none ∧ Models l' [] ∧
      (∀ b, b ∈ addrs cs → read l'.mem b = none) ∧
      l'.mem.length = l.mem.length ∧
      (∀ b, b ∉ addrs cs → read l'.mem b = read l.mem b) := by
  obtain ⟨l', he, hrm, hm, hlen, hframe, hfree⟩ := clear_models cs l fuel hM hfuel
  have hc : l'.item_count_ = 0 := by simpa using hm.2.2
  have hstop := remove_empty_refuses hm
  have hmore : ∀ (n : Nat) (l0 : LinkedList T), removeHeadTimes n l0 = some l' →
      removeHeadTimes (n + 1) l0 = none := by
    intro n
    induction n with
    | zero =>
      intro l0 h0
      have : l0 = l' := Option.some.inj h0
      subst this
      simp only [removeHeadTimes, hstop]
    | succ n ih =>
      intro l0 h0
      unfold removeHeadTimes at h0 ⊢
      split at h0
      · next l1 _ =>
        exact ih l1 h0
      · cases h0
  refine ⟨l', he, hrm, hstop, hmore _ _ hrm, hc, ?_, hm.1, hm, hfree, hlen, hframe⟩
  simp [isEmpty, hc]

/-- C14 on concrete inputs: `clear()` on `[10,20,30,40]` is four successful `remove(0)` calls
and releases the four cells at addresses 0 to 3. -/
theorem clear_empties_witness :
    Models demo4 demo4Cells ∧ demo4Cells.length + 1 ≤ 5 ∧
    ∃ l', clear 5 demo4 = .ok (l', 4) ∧ removeHeadTimes 4 demo4 = some l' ∧
      getLength l' = 0 ∧ isEmpty l' = true ∧ l'.head_ptr_ = none ∧
      read l'.mem 0 = none ∧ read l'.mem 1 = none ∧ read l'.mem 2 = none ∧
      read l'.mem 3 = none := by
  refine ⟨demo4_models, by decide, ?_⟩
  obtain ⟨l', he, hrm, _, _, h1, h2, h3, _, hfree, _⟩ :=
    clear_empties demo4 demo4Cells 5 demo4_models (by decide)
  exact ⟨l', he, hrm, h1, h2, h3, hfree 0 (by decide), hfree 1 (by decide),
    hfree 2 (by decide), hfree 3 (by decide)⟩

/-! ## Which errors the pointer operations can raise -/

theorem deref_err {m : Mem T} {p : Option Nat} {e : Err} (h : deref m p = .error e) :
    e = .nullDeref ∨ e = .invalidDeref := by
  unfold deref at h
  cases p with
  | none => left; cases h; rfl
  | some a =>
    simp only at h
    cases hr : read m a with
    | none => rw [hr] at h; right; cases h; rfl
    | some nd => rw [hr] at h; cases h

theorem getNext_err {m : Mem T} {p : Option Nat} {e : Err} (h : getNext m p = .error e) :
    e = .nullDeref ∨ e = .invalidDeref := by
  unfold getNext at h
  cases hd : deref m p with
  | error e' =>
    rw [hd] at h
    cases h
    exact deref_err hd
  | ok nd => rw [hd] at h; cases h

theorem setNext_err {m : Mem T} {p nx : Option Nat} {e : Err}
    (h : setNext m p nx = .error e) : e = .nullDeref ∨ e = .invalidDeref := by
  unfold setNext at h
  cases p with
  | none => left; cases h; rfl
  | some a =>
    simp only at h
    cases hr : read m a with
    | none => rw [hr] at h; right; cases h; rfl
    | some nd => rw [hr] at h; cases h

theorem getNodeAtLoop_err {m : Mem T} {e : Err} :
    ∀ (n : Nat) (p : Option Nat), getNodeAtLoop m n p = .error e →
      e = .nullDeref ∨ e = .invalidDeref := by
  intro n
  induction n with
  | zero => intro p h; cases h
  | succ n ih =>
    intro p h
    unfold getNodeAtLoop at h
    cases hg : getNext m p with
    | error e' =>
      rw [hg] at h
      cases h
      exact getNext_err hg
    | ok nx =>
      rw [hg] at h
      exact ih nx h

theorem rotateStep_err {l : LinkedList T} {e : Err} (h : rotateStep l = .error e) :
    e = .nullDeref ∨ e = .invalidDeref := by
  unfold rotateStep getNodeAt at h
  simp only [bind, Except.bind] at h
  cases h1 : getNodeAtLoop l.mem (l.item_count_ - 1).toNat l.head_ptr_ with
  | error e1 => rw [h1] at h; cases h; exact getNodeAtLoop_err _ _ h1
  | ok last1 =>
    rw [h1] at h
    simp only at h
    cases h2 : setNext l.mem last1 l.head_ptr_ with
    | error e2 => rw [h2] at h; cases h; exact setNext_err h2
    | ok m1 =>
      rw [h2] at h
      simp only at h
      cases h3 : getNodeAtLoop m1 (l.item_count_ - 1).toNat l.head_ptr_ with
      | error e3 => rw [h3] at h; cases h; exact getNodeAtLoop_err _ _ h3
      | ok last2 =>
        rw [h3] at h
        simp only at h
        cases h4 : getNodeAtLoop m1 (l.item_count_ - 1).toNat last2 with
        | error e4 => rw [h4] at h; cases h; exact getNodeAtLoop_err _ _ h4
        | ok last3 =>
          rw [h4] at h
          simp only at h
          cases h5 : setNext m1 last3 none with
          | error e5 => rw [h5] at h; cases h; exact setNext_err h5
          | ok m3 => rw [h5] at h; cases h

theorem rotate_nat_no_assert (l : LinkedList T) (k : Nat) :
    rotate l (k : Int) ≠ .error .assertionFailed := by
  induction k with
  | zero =>
    rw [Nat.cast_zero, rotate_zero]
    intro h
    cases h
  | succ k ih =>
    rw [Nat.cast_succ, rotate_succ]
    cases hr : rotate l (k : Int) with
    | error e =>
      intro h
      apply ih
      rw [hr]
      cases h
      rfl
    | ok l1 =>
      intro h
      have : rotateStep l1 = .error .assertionFailed := h
      rcases rotateStep_err this with h' | h' <;> cases h'

/-- C15: for any list, `rotate(k)` with `k < 0` ends in the failed assertion `k >= 0`, raised
by the first statement of the outermost call, before the recursive call and before any
relinking; and with `k ≥ 0` the assertion fails at no level of the recursion (whatever else
happens, the outcome is not the assertion failure). -/
theorem rotate_assertion (l : LinkedList T) (k : Int) :
    (k < 0 → rotate l k = .error .assertionFailed) ∧
    (0 ≤ k → rotate l k ≠ .error .assertionFailed) := by
  constructor
  · exact rotate_neg l k
  · intro hk
    obtain ⟨n, rfl⟩ := Int.eq_ofNat_of_zero_le hk
    exact rotate_nat_no_assert l n

/-- C15 on concrete inputs: `rotate(-1)` on `[10,20,30,40]` fails the assertion, `rotate(2)`
does not, and neither does `rotate(2)` on the empty list. -/
theorem rotate_assertion_witness :
    rotate demo4 (-1) = .error .assertionFailed ∧
    rotate demo4 2 ≠ .error .assertionFailed ∧
    rotate (LinkedList.default ([] : Mem Nat)) 2 ≠ .error .assertionFailed :=
  ⟨(rotate_assertion demo4 (-1)).1 (by decide),
   (rotate_assertion demo4 2).2 (by decide),
   (rotate_assertion (LinkedList.default []) 2).2 (by decide)⟩

/-! ## rotate, step by step and modulo the length -/

/-- C17: on a well-formed non-empty list and for `k ≥ 0`, `rotate(k)` returns a list whose
chain is `init ++ [last]`, and `rotate(k + 1)` returns what one more step makes of it: the
chain `last :: init`, with `last` as the new head; the former second-to-last node (the last
cell of `init`, if any) has successor `nullptr` and is the new tail. -/
theorem rotate_succ_step (l : LinkedList T) (cs : List (Nat × T)) (k : Int)
    (hM : Models l cs) (hne : cs ≠ []) (hk : 0 ≤ k) :
    ∃ l1 l2 init last, rotate l k = .ok l1 ∧ Models l1 (init ++ [last]) ∧
      rotateStep l1 = .ok l2 ∧ rotate l (k + 1) = .ok l2 ∧
      Models l2 (last :: init) ∧ l2.head_ptr_ = some last.1 ∧
      (∀ e, (last :: init).getLast? = some e → read l2.mem e.1 = some ⟨e.2, none⟩) ∧
      (∀ e, init.getLast? = some e → read l2.mem e.1 = some ⟨e.2, none⟩) := by
  obtain ⟨n, rfl⟩ := Int.eq_ofNat_of_zero_le hk
  obtain ⟨l1, he1, hm1, _, _⟩ := rotate_models hM hne n
  have hne1 : rotR n cs ≠ [] := by
    intro h
    have := rotR_length n cs
    rw [h] at this
    exact hne (List.length_eq_zero.mp this.symm)
  rcases List.eq_nil_or_concat (rotR n cs) with h | ⟨init, last, hsplit⟩
  · exact absurd h hne1
  · rw [List.concat_eq_append] at hsplit
    rw [hsplit] at hm1
    obtain ⟨l2, he2, hm2, _, _⟩ := rotateStep_models hm1
    refine ⟨l1, l2, init, last, he1, hm1, he2, ?_, hm2, hm2.1.1,
      fun e h => Seg_last_none hm2.1 h, ?_⟩
    · rw [rotate_succ, he1]
      exact he2
    · intro e h
      apply Seg_last_none hm2.1
      obtain ⟨ys, rfl⟩ := List.getLast?_eq_some_iff.mp h
      rw [← List.cons_append]
      exact List.getLast?_concat _

/-- C17 on concrete inputs: `rotate(1)` and `rotate(2)` on `[10,20,30,40]`. -/
theorem rotate_succ_step_witness :
    Models demo4 demo4Cells ∧ demo4Cells ≠ [] ∧ (0 : Int) ≤ 1 ∧
    ∃ l1 l2 init last, rotate demo4 1 = .ok l1 ∧ Models l1 (init ++ [last]) ∧
      rotateStep l1 = .ok l2 ∧ rotate demo4 2 = .ok l2 ∧ Models l2 (last :: init) := by
  refine ⟨demo4_models, by decide, by decide, ?_⟩
  obtain ⟨l1, l2, init, last, h1, h2, h3, h4, h5, _⟩ :=
    rotate_succ_step demo4 demo4Cells 1 demo4_models (by decide) (by decide)
  exact ⟨l1, l2, init, last, h1, h2, h3, h4, h5⟩

theorem rotR_add {α : Type} (a b : Nat) (xs : List α) :
    rotR (a + b) xs = rotR a (rotR b xs) := by
  induction a with
  | zero => rw [Nat.zero_add]; rfl
  | succ a ih => rw [Nat.succ_add, rotR, ih, rotR]

theorem rotR_mul_length {α : Type} (q : Nat) (xs : List α) :
    rotR (q * xs.length) xs = xs := by
  induction q with
  | zero => rw [Nat.zero_mul]; rfl
  | succ q ih => rw [Nat.succ_mul, rotR_add, rotR_length_self, ih]

theorem rotR_mod {α : Type} (k : Nat) (xs : List α) :
    rotR (k % xs.length) xs = rotR k xs := by
  conv_rhs => rw [← Nat.mod_add_div k xs.length]
  rw [rotR_add, Nat.mul_comm, rotR_mul_length]

/-- C18: on a well-formed non-empty list of length `n` and for `k ≥ 0`, `rotate(k)` and
`rotate(k mod n)` both return, and return the very same state. -/
theorem rotate_mod_length (l : LinkedList T) (cs : List (Nat × T)) (k : Int)
    (hM : Models l cs) (hne : cs ≠ []) (hk : 0 ≤ k) :
    ∃ l', rotate l k = .ok l' ∧ rotate l (k % (cs.length : Int)) = .ok l' := by
  obtain ⟨n, rfl⟩ := Int.eq_ofNat_of_zero_le hk
  obtain ⟨l1, he1, hm1, hlen1, hframe1⟩ := rotate_models hM hne n
  obtain ⟨l2, he2, hm2, hlen2, hframe2⟩ := rotate_models hM hne (n % cs.length)
  rw [rotR_mod] at hm2
  have hframe : ∀ b, b ∉ addrs (rotR n cs) → read l2.mem b = read l1.mem b := by
    intro b hb
    rw [rotR_addrs_mem] at hb
    rw [hframe2 b hb, hframe1 b hb]
  have : l2 = l1 := eq_of_models hm1 hm2 (hlen2.trans hlen1.symm) hframe
  rw [this] at he2
  exact ⟨l1, he1, by rw [← Int.ofNat_emod]; exact he2⟩

/-- C18 on concrete inputs: `rotate(6)` and `rotate(2)` agree on `[10,20,30,40]`. -/
theorem rotate_mod_length_witness :
    Models demo4 demo4Cells ∧ demo4Cells ≠ [] ∧ (0 : Int) ≤ 6 ∧
    ∃ l', rotate demo4 6 = .ok l' ∧ rotate demo4 2 = .ok l' :=
  ⟨demo4_models, by decide, by decide,
    rotate_mod_length demo4 demo4Cells 6 demo4_models (by decide) (by decide)⟩

/-! ## getNodeAt beyond the end of the chain -/

theorem getNodeAtLoop_past {m : Mem T} {cs : List (Nat × T)} {p : Option Nat}
    (hs : Seg m p cs none) (j : Nat) :
    getNodeAtLoop m (cs.length + (j + 1)) p = .error .nullDeref := by
  induction cs generalizing p with
  | nil =>
    rw [Seg_nil] at hs
    subst hs
    simp only [List.length_nil, Nat.zero_add]
    rfl
  | cons c cs ih =>
    obtain ⟨hp, nx, hr, hrest⟩ := hs
    subst hp
    have : (c :: cs).length + (j + 1) = (cs.length + (j + 1)) + 1 := by
      simp only [List.length_cons]; omega
    rw [this]
    simp only [getNodeAtLoop, getNext_ok hr]
    exact ih hrest

/-- On a well-formed list of length `n`, `getNodeAt(position)` with `position > n` follows
the successor of `nullptr`. -/
theorem getNodeAt_past {l : LinkedList T} {cs : List (Nat × T)} (hM : Models l cs)
    (position : Int) (h : (cs.length : Int) < position) :
    getNodeAt l position = .error .nullDeref := by
  obtain ⟨j, hj⟩ : ∃ j : Nat, position.toNat = cs.length + (j + 1) :=
    ⟨position.toNat - cs.length - 1, by omega⟩
  rw [getNodeAt, hj]
  exact getNodeAtLoop_past hM.1 j

/-- C20 as stated fails: on the well-formed list `[10,20,30,40]` (`item_count_` = 4) the
position 5 is `>= item_count_`, yet `getNodeAt(5)` does not return `nullptr`: after four links
the walk is at `nullptr` and the fifth iteration calls `getNext` through it. -/
theorem getNodeAt_beyond_length :
    Models demo4 demo4Cells ∧ (5 : Int) ≥ demo4Cells.length ∧
    getNodeAt demo4 5 = .error .nullDeref ∧ getNodeAt demo4 5 ≠ .ok none :=
  ⟨demo4_models, by decide, rfl, fun h => by cases h⟩

/-- C20, amended: on a well-formed list with chain `cs` of length `n` and for a position in
the range its callers guarantee, `0 ≤ position ≤ n`, `getNodeAt(position)` returns without
dereferencing `nullptr`: the node at that position when `position < n`, and `nullptr` when
`position = n`. -/
theorem getNodeAt_within_contract (l : LinkedList T) (cs : List (Nat × T)) (position : Int)
    (hM : Models l cs) (h0 : 0 ≤ position) (h1 : position ≤ cs.length) :
    (position < cs.length →
      ∃ c, cs[position.toNat]? = some c ∧ getNodeAt l position = .ok (some c.1)) ∧
    (position = cs.length → getNodeAt l position = .ok none) := by
  obtain ⟨k, rfl⟩ := Int.eq_ofNat_of_zero_le h0
  rw [getNodeAt, Int.toNat_ofNat]
  constructor
  · intro hlt
    have hk : k < cs.length := by omega
    exact ⟨cs[k], List.getElem?_eq_getElem hk, getNodeAtLoop_chain hM.1 k hk⟩
  · intro heq
    have hk : k = cs.length := by omega
    subst hk
    exact getNodeAtLoop_seg hM.1

/-- C20, amended, on concrete inputs: on `[10,20,30,40]`, `getNodeAt(2)` is the node at
address 2 and `getNodeAt(4)` is `nullptr`. -/
theorem getNodeAt_within_contract_witness :
    Models demo4 demo4Cells ∧
    getNodeAt demo4 2 = .ok (some 2) ∧ getNodeAt demo4 4 = .ok none := by
  refine ⟨demo4_models, ?_, ?_⟩
  · obtain ⟨c, hc, he⟩ :=
      (getNodeAt_within_contract demo4 demo4Cells 2 demo4_models (by decide) (by decide)).1
        (by decide)
    have : c = (2, 30) := by
      have h2 : demo4Cells[Int.toNat 2]? = some (2, 30) := rfl
      rw [h2] at hc
      exact (Option.some.inj hc).symm
    rw [this] at he
    exact he
  · exact (getNodeAt_within_contract demo4 demo4Cells 4 demo4_models (by decide)
      (by decide)).2 rfl

/-! ## Copy construction -/

theorem setItem_ok {m : Mem T} {a : Nat} {nd : Node T} (h : read m a = some nd) (v : T) :
    setItem m (some a) v = .ok (m.set a (some { nd with item_ := v })) := by
  simp [setItem, h]

theorem read_set_idem {m : Mem T} {a : Nat} {nd : Node T} (h : read m a = some nd) (b : Nat) :
    read (m.set a (some nd)) b = read m b := by
  by_cases hab : a = b
  · subst hab
    rw [read_set_same _ (read_lt h), h]
  · exact read_set_other _ hab

theorem Models_of_frame {a : LinkedList T} {cs : List (Nat × T)} (hM : Models a cs)
    (m' : Mem T) (h : ∀ b, b ∈ addrs cs → read m' b = read a.mem b) :
    Models { mem := m', head_ptr_ := a.head_ptr_, item_count_ := a.item_count_ } cs :=
  ⟨Seg_congr (fun c hc => h c.1 (mem_addrs hc)) hM.1, hM.2.1, hM.2.2⟩

theorem copyLoop_chain (rest : List (Nat × T)) :
    ∀ (fuel : Nat) (m : Mem T) (orig : Option Nat) (ep : Nat) (ev : T),
      Seg m orig rest none → read m ep = some ⟨ev, none⟩ → ep ∉ addrs rest →
      rest.length + 1 ≤ fuel →
      ∃ m' new le, copyLoop fuel m orig (some ep) = .ok (m', some le.1) ∧
        m'.length = m.length + rest.length ∧
        (∀ b, b < m.length → b ≠ ep → read m' b = read m b) ∧
        elems new = elems rest ∧
        addrs new = List.range' m.length rest.length ∧
        Seg m' (some ep) ((ep, ev) :: new) none ∧
        ((ep, ev) :: new).getLast? = some le := by
  induction rest with
  | nil =>
    intro fuel m orig ep ev hseg hep _ hfuel
    obtain ⟨f, rfl⟩ : ∃ f, fuel = f + 1 := ⟨fuel - 1, by omega⟩
    rw [Seg_nil] at hseg
    subst hseg
    refine ⟨m, [], (ep, ev), ?_, rfl, fun _ _ _ => rfl, rfl, rfl, ⟨rfl, none, hep, rfl⟩, rfl⟩
    simp only [copyLoop, ne_eq, not_true_eq_false, if_false]
    rfl
  | cons c cs ih =>
    intro fuel m orig ep ev hseg hep hnot hfuel
    obtain ⟨f, rfl⟩ : ∃ f, fuel = f + 1 := ⟨fuel - 1, by omega⟩
    obtain ⟨horig, nx, hc, hrest⟩ := hseg
    subst horig
    have hepl : ep < m.length := read_lt hep
    have hcl : c.1 < m.length := read_lt hc
    have hcep : c.1 ≠ ep := fun h => hnot (by rw [addrs_cons, ← h]; simp)
    have hlt := Seg_lt hrest
    -- the store after `new` and after linking the new node behind `new_chain_ptr`
    have hep1 : read (m ++ [some (Node.mk c.2 none)]) ep = some ⟨ev, none⟩ := by
      rw [read_push_old _ hepl, hep]
    have hnew2 : read ((m ++ [some (Node.mk c.2 none)]).set ep
        (some (Node.mk ev (some m.length)))) m.length = some ⟨c.2, none⟩ := by
      rw [read_set_other _ (by omega), read_push_new]
    have hep2 : read ((m ++ [some (Node.mk c.2 none)]).set ep
        (some (Node.mk ev (some m.length)))) ep = some ⟨ev, some m.length⟩ :=
      read_set_same _ (by simp; omega)
    have hc2 : read ((m ++ [some (Node.mk c.2 none)]).set ep
        (some (Node.mk ev (some m.length)))) c.1 = some ⟨c.2, nx⟩ := by
      rw [read_set_other _ (Ne.symm hcep), read_push_old _ hcl, hc]
    have hrest2 : Seg ((m ++ [some (Node.mk c.2 none)]).set ep
        (some (Node.mk ev (some m.length)))) nx cs none := by
      refine Seg_congr ?_ hrest
      intro d hd
      have hd1 : d.1 < m.length := hlt d.1 (mem_addrs hd)
      have hd2 : ep ≠ d.1 := fun h =>
        hnot (by rw [addrs_cons, h]; exact List.mem_cons_of_mem _ (mem_addrs hd))
      rw [read_set_other _ hd2, read_push_old _ hd1]
    have hfresh : m.length ∉ addrs cs := fun h => lt_irrefl _ (hlt _ h)
    obtain ⟨m', new', le, he, hlen, hframe, hel, had, hseg', hlast⟩ :=
      ih f _ nx m.length c.2 hrest2 hnew2 hfresh (by simp at hfuel ⊢; omega)
    have hlen2 : ((m ++ [some (Node.mk c.2 none)]).set ep
        (some (Node.mk ev (some m.length)))).length = m.length + 1 := by simp
    rw [hlen2] at hlen hframe had
    refine ⟨m', (m.length, c.2) :: new', le, ?_, ?_, ?_, ?_, ?_, ?_, ?_⟩
    · simp only [copyLoop, ne_eq, reduceCtorEq, not_false_eq_true, if_true, getItem_ok hc,
        bind, Except.bind, newNode, setNext_ok hep1, getNext_ok hep2, getNext_ok hc2, he]
    · rw [hlen, List.length_cons]; omega
    · intro b hb hbe
      rw [hframe b (by omega) (by omega), read_set_other _ (Ne.symm hbe), read_push_old _ hb]
    · simp only [elems, List.map_cons] at hel ⊢
      rw [hel]
    · rw [addrs_cons, had, List.length_cons, List.range'_succ]
    · refine ⟨rfl, some m.length, ?_, hseg'⟩
      rw [hframe ep (by omega) (by omega), hep2]
    · rw [List.getLast?_cons_cons]
      exact hlast

theorem copyConstruct_models {a : LinkedList T} {cs : List (Nat × T)} (hM : Models a cs)
    (dflt : T) (fuel : Nat) (hfuel : cs.length ≤ fuel) :
    ∃ l' cs', copyConstruct dflt fuel a = .ok l' ∧ Models l' cs' ∧
      elems cs' = elems cs ∧
      addrs cs' = List.range' a.mem.length cs.length ∧
      l'.mem.length = a.mem.length + cs.length ∧
      (∀ b, b < a.mem.length → read l'.mem b = read a.mem b) ∧
      l'.item_count_ = a.item_count_ := by
  obtain ⟨hseg, hnd, hcnt⟩ := hM
  cases cs with
  | nil =>
    rw [Seg_nil] at hseg
    refine ⟨{ mem := a.mem, head_ptr_ := none, item_count_ := a.item_count_ }, [], ?_,
      ⟨rfl, List.nodup_nil, hcnt⟩, rfl, rfl, rfl, fun _ _ => rfl, rfl⟩
    simp only [copyConstruct, hseg, if_true]
    rfl
  | cons c rest =>
    obtain ⟨hhead, nx, hc, hrest⟩ := hseg
    have hcl : c.1 < a.mem.length := read_lt hc
    have hlt := Seg_lt hrest
    have hc1 : read (a.mem ++ [some (Node.mk dflt none)]) c.1 = some ⟨c.2, nx⟩ := by
      rw [read_push_old _ hcl, hc]
    have hb1 := read_push_new a.mem (some (Node.mk dflt none))
    have hb2 : read ((a.mem ++ [some (Node.mk dflt none)]).set a.mem.length
        (some (Node.mk c.2 none))) a.mem.length = some ⟨c.2, none⟩ :=
      read_set_same _ (by simp)
    have hc2 : read ((a.mem ++ [some (Node.mk dflt none)]).set a.mem.length
        (some (Node.mk c.2 none))) c.1 = some ⟨c.2, nx⟩ := by
      rw [read_set_other _ (by omega), hc1]
    have hrest2 : Seg ((a.mem ++ [some (Node.mk dflt none)]).set a.mem.length
        (some (Node.mk c.2 none))) nx rest none := by
      refine Seg_congr ?_ hrest
      intro d hd
      have hd1 : d.1 < a.mem.length := hlt d.1 (mem_addrs hd)
      rw [read_set_other _ (by omega), read_push_old _ hd1]
    have hfresh : a.mem.length ∉ addrs rest := fun h => lt_irrefl _ (hlt _ h)
    obtain ⟨m3, new, le, he, hlen, hframe, hel, had, hseg3, hlast⟩ :=
      copyLoop_chain rest fuel _ nx a.mem.length c.2 hrest2 hb2 hfresh
        (by simpa using hfuel)
    have hlen2 : ((a.mem ++ [some (Node.mk dflt none)]).set a.mem.length
        (some (Node.mk c.2 none))).length = a.mem.length + 1 := by simp
    rw [hlen2] at hlen hframe had
    have hle : read m3 le.1 = some ⟨le.2, none⟩ := Seg_last_none hseg3 hlast
    have hne : ¬ (a.head_ptr_ = none) := by rw [hhead]; simp
    refine ⟨{ mem := m3.set le.1 (some (Node.mk le.2 none)),
              head_ptr_ := some a.mem.length,
              item_count_ := a.item_count_ }, (a.mem.length, c.2) :: new, ?_,
      ⟨?_, ?_, ?_⟩, ?_, ?_, ?_, ?_, rfl⟩
    · simp only [copyConstruct, if_neg hne, newNode, hhead, getItem_ok hc1, bind, Except.bind,
        setItem_ok hb1, getNext_ok hc2, he, setNext_ok hle]
      rfl
    · exact Seg_congr (fun d _ => read_set_idem hle d.1) hseg3
    · rw [addrs_cons, had, ← List.range'_succ]
      exact List.nodup_range' _ _
    · have hl : new.length = rest.length := by
        have := congrArg List.length hel
        simpa [elems] using this
      rw [hcnt]
      simp [hl]
    · simp only [elems, List.map_cons] at hel ⊢
      rw [hel]
    · rw [addrs_cons, had, List.length_cons, List.range'_succ]
    · simp only [List.length_set, hlen, List.length_cons]
      omega
    · intro b hb
      show read (m3.set le.1 _) b = read a.mem b
      rw [read_set_idem hle, hframe b (by omega) (by omega), read_set_other _ (by omega),
        read_push_old _ hb]

/-- C13: copy-constructing from a well-formed source with chain `cs` (the loop allowed at
least `length` evaluations of its condition) returns a well-formed list of the same length
with the same element sequence, empty with `head_ptr_` = `nullptr` when the source is empty,
made only of cells allocated by the constructor, whose last cell has successor `nullptr`;
the source is untouched.  Afterwards every sequence of `insert` and `remove` calls on the
copy (so `remove(0)` in particular), `invert()` on the copy, and `rotate(k)` on a non-empty
copy, leave the source with its chain `cs`, hence its length and element sequence. -/
theorem copy_independent (dflt : T) (a : LinkedList T) (cs : List (Nat × T)) (fuel : Nat)
    (hM : Models a cs) (hfuel : cs.length ≤ fuel) :
    ∃ l' cs', copyConstruct dflt fuel a = .ok l' ∧ Models l' cs' ∧
      elems cs' = elems cs ∧ getLength l' = getLength a ∧
      (cs = [] → l'.head_ptr_ = none) ∧
      (∀ b, b ∈ addrs cs' → a.mem.length ≤ b) ∧
      (∀ e, cs'.getLast? = some e → read l'.mem e.1 = some ⟨e.2, none⟩) ∧
      Models ⟨l'.mem, a.head_ptr_, a.item_count_⟩ cs ∧
      (∀ ops : List (Op T), ∃ l2 cs2, run ops l' = .ok l2 ∧ Models l2 cs2 ∧
        Models ⟨l2.mem, a.head_ptr_, a.item_count_⟩ cs) ∧
      (∀ fuel2, cs.length ≤ fuel2 → ∃ l2, invert fuel2 l' = .ok l2 ∧
        Models ⟨l2.mem, a.head_ptr_, a.item_count_⟩ cs) ∧
      (cs ≠ [] → ∀ k : Int, 0 ≤ k → ∃ l2, rotate l' k = .ok l2 ∧
        Models ⟨l2.mem, a.head_ptr_, a.item_count_⟩ cs) := by
  obtain ⟨l', cs', he, hm, hel, had, hlen, hframe, hcnt⟩ :=
    copyConstruct_models hM dflt fuel hfuel
  have hsrc : ∀ b, b ∈ addrs cs → b < a.mem.length := Seg_lt hM.1
  have hnew : ∀ b, b ∈ addrs cs' → a.mem.length ≤ b := by
    intro b hb
    rw [had, List.mem_range'_1] at hb
    exact hb.1
  have hdisj : ∀ b, b ∈ addrs cs → b ∉ addrs cs' := by
    intro b hb hb'
    have h1 := hsrc b hb
    have h2 := hnew b hb'
    omega
  have hl : cs'.length = cs.length := by
    have := congrArg List.length hel
    simpa [elems] using this
  refine ⟨l', cs', he, hm, hel, hcnt, ?_, hnew, fun e h => Seg_last_none hm.1 h,
    Models_of_frame hM _ (fun b hb => hframe b (hsrc b hb)), ?_, ?_, ?_⟩
  · intro hnil
    subst hnil
    have : cs' = [] := List.length_eq_zero.mp (by simpa using hl)
    subst this
    exact hm.1
  · intro ops
    obtain ⟨l2, cs2, he2, hm2, _, hframe2, _⟩ := run_models ops l' cs' hm
    refine ⟨l2, cs2, he2, hm2, Models_of_frame hM _ ?_⟩
    intro b hb
    have h1 := hsrc b hb
    rw [hframe2 b (by omega) (hdisj b hb), hframe b h1]
  · intro fuel2 hf2
    obtain ⟨l2, he2, _, _, hframe2, _⟩ := invert_models hm fuel2 (by omega)
    refine ⟨l2, he2, Models_of_frame hM _ ?_⟩
    intro b hb
    rw [hframe2 b (hdisj b hb), hframe b (hsrc b hb)]
  · intro hne k hk
    obtain ⟨n, rfl⟩ := Int.eq_ofNat_of_zero_le hk
    have hne' : cs' ≠ [] := by
      intro h
      rw [h] at hl
      exact hne (List.length_eq_zero.mp hl.symm)
    obtain ⟨l2, he2, _, _, hframe2⟩ := rotate_models hm hne' n
    refine ⟨l2, he2, Models_of_frame hM _ ?_⟩
    intro b hb
    rw [hframe2 b (hdisj b hb), hframe b (hsrc b hb)]

/-- C13 on concrete inputs: copying `[10,20,30,40]` gives a list with elements
`[10,20,30,40]` and length 4, and after `remove(0)` on the copy the source still has its
chain. -/
theorem copy_independent_witness :
    Models demo4 demo4Cells ∧ demo4Cells.length ≤ 4 ∧
    ∃ l' cs', copyConstruct 0 4 demo4 = .ok l' ∧ Models l' cs' ∧
      elems cs' = [10, 20, 30, 40] ∧ getLength l' = 4 ∧
      ∃ l2 cs2, run [Op.remove 0] l' = .ok l2 ∧ Models l2 cs2 ∧
        Models ⟨l2.mem, demo4.head_ptr_, demo4.item_count_⟩ demo4Cells := by
  refine ⟨demo4_models, by decide, ?_⟩
  obtain ⟨l', cs', he, hm, hel, hlen, _, _, _, _, hops, _⟩ :=
    copy_independent 0 demo4 demo4Cells 4 demo4_models (by decide)
  exact ⟨l', cs', he, hm, hel, hlen, hops [Op.remove 0]⟩

end LinkedListCpp
